import Mathlib

/-!
# ChessFileStorage codec — formal model and verification

A shallow embedding of the encode/decode codec of `chess_storage.py`
(and its helper `util.to_binary_string`), together with proofs of the
specification's claims about it.

Modelling conventions:

* Bit strings (Python strings over the characters 0 and 1) are modelled as
  `List Bool` (`'1' ↦ true`).  String concatenation, slicing and equality
  map one-to-one onto list append, drop/take and equality.
* Byte values (elements of `list(f.read())`) are `Nat`, with the range
  hypothesis `b < 256` carried where it matters.
* The external rules engine (the `python-chess` library) is an interface
  `Engine`: ordered legal-move enumeration (UCI strings), move application,
  and the two draw-ish predicates the encoder consults.  Concrete miniature
  engines (`toyEngine`, `engine8`, `toy5`, `chess20`) instantiate the
  interface for the concrete scenarios and witnesses.
* Python's `int(log2 n)` is `Nat.log 2 n` (exact for the move counts that
  occur; floating point cannot differ from the exact floor below 2^48).
-/

namespace ChessStorage

/-- Binary digits of `n` (helper with structural fuel so that the kernel
can evaluate it; `fuel ≥ n` suffices). -/
def natBitsAux : Nat → Nat → List Bool
  | 0, _ => []
  | fuel + 1, n => if n = 0 then [] else natBitsAux fuel (n / 2) ++ [n % 2 == 1]

/-- Binary digits of `n`, most significant first, with no leading zeros;
`natBits 0 = []`.  This is the digit string of Python's `format(n, "b")`
and `bin(n)[2:]` minus the special case at zero. -/
def natBits (n : Nat) : List Bool := natBitsAux n n

/-- Structural model of Python's `int(log2(n))` (helper with fuel). -/
def log2Aux : Nat → Nat → Nat
  | 0, _ => 0
  | fuel + 1, n => if n < 2 then 0 else log2Aux fuel (n / 2) + 1

/-- `⌊log₂ n⌋`, the bit width the codec derives from a legal-move count:
Python's `int(log2(n))` (exact: the move counts that occur are far below
the first double-rounding hazard).  Agrees with Mathlib's `Nat.log 2`
(`log2_eq`); defined structurally so the kernel can evaluate it. -/
def log2 (n : Nat) : Nat := log2Aux n n

/-- Python's `format(n, "b")` / `bin(n)[2:]`: like `natBits` but `0 ↦ "0"`. -/
def pyBin (n : Nat) : List Bool :=
  if n = 0 then [false] else natBits n

/-- Zero-pad a bit string on the left to length `w` (Python `zfill` /
the `0{w}` format padding); strings already at least `w` long are kept. -/
def padBits (w : Nat) (l : List Bool) : List Bool :=
  List.replicate (w - l.length) false ++ l

/-- `util.to_binary_string(number, length)`, i.e.
`format(number, f"0{length}b")`: the binary digits of `number` left-padded
with zeros to at least `length` characters.  This is also exactly the bit
string `bin(i)[2:].zfill(width)` appended per move by `decode`. -/
def to_binary_string (number length : Nat) : List Bool :=
  padBits length (pyBin number)

/-- Python `int(bit_string, 2)`: the numeric value of a bit string. -/
def bitsToNat (l : List Bool) : Nat :=
  l.foldl (fun a b => 2 * a + (if b then 1 else 0)) 0

/-- The canonical fixed-width binary encoding, most significant bit first:
`bitsFixed w n` is the low `w` bits of `n`. -/
def bitsFixed : Nat → Nat → List Bool
  | 0, _ => []
  | w + 1, n => bitsFixed w (n / 2) ++ [n % 2 == 1]

/-!
## The rules-engine interface

`chess_storage.py` delegates all chess knowledge to the external
`python-chess` library.  Following the spec (§3, §9) this collaborator is
an interface: an ordered legal-move enumeration (by UCI string, the
notation both `encode` and `decode` use), move application, and the two
extra predicates the encoder's part-closing test consults.  `Pos` is the
opaque position state. -/
structure Engine (Pos : Type) where
  start : Pos
  legalMoves : Pos → List String
  push : Pos → String → Pos
  insufficientMaterial : Pos → Bool
  canClaimDraw : Pos → Bool

/-- One emitted game record (`pgn.Game` in the source): the three headers
written by `encode` plus the accumulated move list (`add_line(move_stack)`).
The PGN text serialization itself is external formatting and not modelled. -/
structure Part where
  fileType : String
  fileName : String
  partNumber : Nat
  moves : List String
  deriving Repr, DecidableEq

/-- The `move_bits` dictionary body: moves paired with
`to_binary_string(index, width)` in enumeration order, stopping at the
first index whose binary string is longer than `width`
(`if len(move_binary) > max_binary_length: break`).  The Python dict is
modelled as an association list; legal-move UCI strings are pairwise
distinct, so insertion order and lookups agree. -/
def buildMoveBitsFrom (w : Nat) : Nat → List String → List (String × List Bool)
  | _, [] => []
  | i, m :: rest =>
    let mb := to_binary_string i w
    if w < mb.length then []
    else (m, mb) :: buildMoveBitsFrom w (i + 1) rest

def buildMoveBits (moves : List String) (w : Nat) : List (String × List Bool) :=
  buildMoveBitsFrom w 0 moves

/-- The flattened bit representation of a byte list:
`"".join(to_binary_string(byte, 8) for byte in bytes)`. -/
def bitsOfBytes (bs : List Nat) : List Bool :=
  (bs.map (fun b => to_binary_string b 8)).join

/-- `file_chunk_pool`: the bit string of the (up to) two bytes starting at
`file_bit_index // 8`. -/
def filePool (fileBytes : List Nat) (bitIndex : Nat) : List Bool :=
  bitsOfBytes ((fileBytes.drop (bitIndex / 8)).take 2)

/-- `next_file_chunk`: the slice
`file_chunk_pool[bitIndex % 8 : bitIndex % 8 + w]` (Python slices clamp,
as do `drop`/`take`). -/
def nextChunk (fileBytes : List Nat) (bitIndex w : Nat) : List Bool :=
  ((filePool fileBytes bitIndex).drop (bitIndex % 8)).take w

/-- The encoder's move-push scan: the first map entry whose bit string
equals the chunk (`for move_uci in move_bits: if move_bits[move_uci] ==
next_file_chunk: ... break`). -/
def findMatch (mb : List (String × List Bool)) (c : List Bool) :
    Option String :=
  (mb.find? (fun e => e.2 == c)).map (fun e => e.1)

/-- `parts + [new part]` with headers as written at both close sites of
`encode`: `PartNumber = str(len(output_pgns) + 1)`. -/
def closePart (ft fn : String) (parts : List Part) (stack : List String) :
    List Part :=
  parts ++ [⟨ft, fn, parts.length + 1, stack⟩]

/-- Encoder loop state: current position, the running game's move stack and
move counter, the file bit cursor, and completed parts.  `clamped` is a
ghost flag (it influences neither control flow nor emitted parts): it
records whether any step's width was clamped below
`int(log2(len(legal_moves)))` by the remaining-bits bound. -/
structure EncState (Pos : Type) where
  pos : Pos
  stack : List String
  movesInGame : Nat
  bitIndex : Nat
  parts : List Part
  clamped : Bool

inductive EncodeError where
  | invalidInput
  | engineFailure
  deriving Repr, DecidableEq

/-- Result of one iteration of the `while True` loop in `encode`. -/
inductive IterResult (Pos : Type) where
  | next (s : EncState Pos)
  | done (parts : List Part) (clamped : Bool)
  | fail (e : EncodeError)

/-- One iteration of the encoder's `while True` body, faithful to
`chess_storage.py` lines 46–115: the 100-move part split (`continue`),
width computation `min(int(log2(len(legal_moves))), remaining)`, the
truncated index→bit-string map, chunk extraction, the first-match push,
cursor advance, and the terminal/EOF part close.  An empty legal-move list
makes Python's `log2` raise (propagating out of `encode` uncaught), which
is the `fail .engineFailure` outcome. -/
def encodeIter (E : Engine Pos) (ft fn : String) (fileBytes : List Nat)
    (bitsCount : Nat) (s : EncState Pos) : IterResult Pos :=
  let legal := E.legalMoves s.pos
  if 100 ≤ s.movesInGame then
    .next ⟨E.start, [], 0, s.bitIndex, closePart ft fn s.parts s.stack,
      s.clamped⟩
  else if legal.length = 0 then .fail .engineFailure
  else
    let w := min (log2 legal.length) (bitsCount - s.bitIndex)
    let clamped := s.clamped ||
      decide (bitsCount - s.bitIndex < log2 legal.length)
    let mb := buildMoveBits legal w
    let c := nextChunk fileBytes s.bitIndex w
    let st : Pos × List String × Nat :=
      match findMatch mb c with
      | some m => (E.push s.pos m, s.stack ++ [m], s.movesInGame + 1)
      | none => (s.pos, s.stack, s.movesInGame)
    let idx := s.bitIndex + w
    let eof : Bool := decide (bitsCount ≤ idx)
    let close : Bool := decide ((E.legalMoves st.1).length ≤ 1)
      || E.insufficientMaterial st.1 || E.canClaimDraw st.1 || eof
    let s2 : EncState Pos :=
      if close then ⟨E.start, [], 0, idx, closePart ft fn s.parts st.2.1,
        clamped⟩
      else ⟨st.1, st.2.1, st.2.2, idx, s.parts, clamped⟩
    if eof then .done s2.parts s2.clamped else .next s2

/-- The encoder's `while True` loop, with explicit fuel (`none` = fuel
exhausted before the loop broke). -/
def encodeLoop (E : Engine Pos) (ft fn : String) (fileBytes : List Nat)
    (bitsCount : Nat) :
    Nat → EncState Pos → Option (Except EncodeError (List Part × Bool))
  | 0, _ => none
  | fuel + 1, s =>
    match encodeIter E ft fn fileBytes bitsCount s with
    | .next s2 => encodeLoop E ft fn fileBytes bitsCount fuel s2
    | .done parts clamped => some (.ok (parts, clamped))
    | .fail e => some (.error e)

/-- The dictionary returned by `encode` (PGN text join elided; the per-part
`move_counts` re-parse through the external PGN reader is modelled as the
part's move count, which is what that round-trip yields).  `clamped` is
the ghost flag. -/
structure EncodeResult where
  parts : List Part
  fileName : String
  gameCount : Nat
  moveCounts : List Nat
  clamped : Bool
  deriving Repr, DecidableEq

def initState (E : Engine Pos) : EncState Pos :=
  ⟨E.start, [], 0, 0, [], false⟩

/-- `encode(file_path)` after the file has been read into `fileBytes`
(file-system access elided; `ft`/`fn` are the extension and base name
derived from the path).  An empty byte buffer raises
`ValueError("File is empty")`, the spec's `InvalidInput`. -/
def encode (E : Engine Pos) (ft fn : String) (fileBytes : List Nat)
    (fuel : Nat) : Option (Except EncodeError EncodeResult) :=
  if fileBytes.length = 0 then some (.error .invalidInput)
  else
    match encodeLoop E ft fn fileBytes (fileBytes.length * 8) fuel
      (initState E) with
    | none => none
    | some (.error e) => some (.error e)
    | some (.ok (parts, clamped)) =>
      some (.ok ⟨parts, fn, parts.length,
        parts.map (fun p => p.moves.length), clamped⟩)

inductive DecodeError where
  | corruptData (move : String)
  deriving Repr, DecidableEq

/-- Byte-draining helper with structural fuel (`fuel ≥ acc.length`
suffices) so the kernel can evaluate it. -/
def drainBytesAux : Nat → List Bool → List Nat → List Bool × List Nat
  | 0, acc, out => (acc, out)
  | fuel + 1, acc, out =>
    if 8 ≤ acc.length then
      drainBytesAux fuel (acc.drop 8) (out ++ [bitsToNat (acc.take 8)])
    else (acc, out)

/-- The decoder's byte-draining loop:
`while len(output_data) >= 8: ...` — emit the first 8 accumulator bits as
a byte, repeatedly. -/
def drainBytes (acc : List Bool) (out : List Nat) : List Bool × List Nat :=
  drainBytesAux acc.length acc out

/-- The inner move loop of `decode` for one game: look the move up in the
step's legal-move list (`.index` raises on absence — the `CorruptData`
outcome), append `bin(i)[2:].zfill(int(log2(len(legal))))` to the bit
accumulator, push the move, drain complete bytes. -/
def decodeGame (E : Engine Pos) :
    Pos → List String → List Bool → List Nat →
    Except DecodeError (List Bool × List Nat)
  | _, [], acc, out => .ok (acc, out)
  | board, m :: rest, acc, out =>
    let legal := E.legalMoves board
    match legal.findIdx? (fun u => u == m) with
    | none => .error (.corruptData m)
    | some i =>
      let w := log2 legal.length
      let p := drainBytes (acc ++ to_binary_string i w) out
      decodeGame E (E.push board m) rest p.1 p.2

/-- The outer game loop of `decode`: each game starts from a fresh initial
position, while the bit accumulator and output bytes persist across
games. -/
def decodeAll (E : Engine Pos) :
    List (List String) → List Bool → List Nat →
    Except DecodeError (List Nat)
  | [], _, out => .ok out
  | g :: gs, acc, out =>
    match decodeGame E E.start g acc out with
    | .error e => .error e
    | .ok (acc2, out2) => decodeAll E gs acc2 out2

/-- `decode(moves_list, ...)` restricted to its codec core: the per-part
move sequences (already split on spaces) to the reconstructed byte list.
The trailing lookup of the `FileType` header over the network is excluded
I/O plumbing; the output file append is modelled by the returned byte
list.  Any accumulator bits short of a byte at the end are dropped. -/
def decode (E : Engine Pos) (movesList : List (List String)) :
    Except DecodeError (List Nat) :=
  decodeAll E movesList [] []

/-- Spec-side view of one game's decoding: the concatenation of the bit
strings `decode` appends per move (`none` = corrupt move found). -/
def decodeBitsGame (E : Engine Pos) :
    Pos → List String → Option (List Bool)
  | _, [] => some []
  | board, m :: rest =>
    let legal := E.legalMoves board
    match legal.findIdx? (fun u => u == m) with
    | none => none
    | some i =>
      (decodeBitsGame E (E.push board m) rest).map
        (fun bs => to_binary_string i (log2 legal.length) ++ bs)

/-- Spec-side view of a whole decode run as one bit string. -/
def decodeBits (E : Engine Pos) : List (List String) → Option (List Bool)
  | [] => some []
  | g :: gs =>
    match decodeBitsGame E E.start g, decodeBits E gs with
    | some a, some b => some (a ++ b)
    | _, _ => none

/-- Structural-fuel helper for `bytesOfBits`. -/
def bytesOfBitsAux : Nat → List Bool → List Nat
  | 0, _ => []
  | fuel + 1, l =>
    if 8 ≤ l.length then bitsToNat (l.take 8) :: bytesOfBitsAux fuel (l.drop 8)
    else []

/-- Group a bit string into complete bytes, dropping any trailing bits
short of a byte. -/
def bytesOfBits (l : List Bool) : List Nat :=
  bytesOfBitsAux l.length l

/-- A miniature deterministic rules engine used to witness the abstract
theorems on concrete inputs: every position offers the same four distinct
moves and no draw condition ever arises. -/
def toyEngine : Engine (List String) where
  start := []
  legalMoves _ := ["a", "b", "c", "d"]
  push p m := p ++ [m]
  insufficientMaterial _ := false
  canClaimDraw _ := false

/-- An eight-move engine: its step width is 3, so a one-byte file forces a
clamped final step (8 = 3 + 3 + 2). -/
def engine8 : Engine (List String) where
  start := []
  legalMoves _ := ["a", "b", "c", "d", "e", "f", "g", "h"]
  push p m := p ++ [m]
  insufficientMaterial _ := false
  canClaimDraw _ := false

/-- A five-move engine: its step width is 2, yet the move at ordinal
index 4 exists, and `decode` appends `bin(4) = 100` — three bits — for
it. -/
def toy5 : Engine (List String) where
  start := []
  legalMoves _ := ["a", "b", "c", "d", "e"]
  push p m := p ++ [m]
  insufficientMaterial _ := false
  canClaimDraw _ := false

/-- A twenty-move engine: every position offers twenty distinct moves, the
legal-move count of the initial chess position, so every step of a 2-byte
file has width 4 and no step clamps. -/
def chess20 : Engine (List String) where
  start := []
  legalMoves _ := ["m01", "m02", "m03", "m04", "m05", "m06", "m07", "m08",
    "m09", "m10", "m11", "m12", "m13", "m14", "m15", "m16", "m17", "m18",
    "m19", "m20"]
  push p m := p ++ [m]
  insufficientMaterial _ := false
  canClaimDraw _ := false

/-- The sum of the per-move widths `int(log2(len(legal_moves)))` along a
replayed game, the quantity the spec's output-length formula is built
from (spec-side; compared against the byte count the source `decode`
actually emits). -/
def specWidthSum (E : Engine Pos) : Pos → List String → Nat
  | _, [] => 0
  | p, m :: rest =>
    log2 (E.legalMoves p).length + specWidthSum E (E.push p m) rest

/-- The spec's asserted output length for `decode`: the floor of the total
per-move width over 8 (spec-side). -/
def specOutLen (E : Engine Pos) (gs : List (List String)) : Nat :=
  ((gs.map (fun g => specWidthSum E E.start g)).sum) / 8

/-!
## Claim C3: corrupt decode input
-/

/-- Replay a move list from a position through the engine. -/
def replay (E : Engine Pos) (p : Pos) (ms : List String) : Pos :=
  ms.foldl E.push p

/-- All moves of one game are legal at their steps when replayed from
`p`. -/
def GameLegal (E : Engine Pos) (p : Pos) (ms : List String) : Prop :=
  ∀ j (hj : j < ms.length),
    ms.get ⟨j, hj⟩ ∈ E.legalMoves (replay E p (ms.take j))

/-- All games of a decode input are fully legal when each is replayed from
the initial position. -/
def AllLegal (E : Engine Pos) (gs : List (List String)) : Prop :=
  ∀ k (hk : k < gs.length), GameLegal E E.start (gs.get ⟨k, hk⟩)

/-- Some move of some game is absent from the legal-move set enumerated at
its step (its game replayed from the initial position). -/
def HasIllegalMove (E : Engine Pos) (gs : List (List String)) : Prop :=
  ∃ k, ∃ hk : k < gs.length, ∃ j, ∃ hj : j < (gs.get ⟨k, hk⟩).length,
    (gs.get ⟨k, hk⟩).get ⟨j, hj⟩ ∉
      E.legalMoves (replay E E.start ((gs.get ⟨k, hk⟩).take j))

/-!
## Encoder step analysis

Facts available at every iteration of the encode loop: the chunk is a
window of the flattened file bits, the move map is hit by exactly one
entry, and the iteration pushes exactly one move.
-/

/-- Byte values of a file buffer read by `f.read()` are below 256. -/
def BytesOk (fileBytes : List Nat) : Prop := ∀ b ∈ fileBytes, b < 256

/-- Well-formedness of the rules engine, all satisfied by chess with
`python-chess`: legal-move UCI strings at a position are pairwise
distinct, the initial position has at least two legal moves (chess: 20),
and no position has 256 or more legal moves (chess: at most 218). -/
structure GoodEngine (E : Engine Pos) : Prop where
  nodup : ∀ p, (E.legalMoves p).Nodup
  startMoves : 2 ≤ (E.legalMoves E.start).length
  bounded : ∀ p, (E.legalMoves p).length < 256

/-- Width of the encode step at state `s`:
`min(int(log2(len(legal_moves))), file_bits_count - file_bit_index)`. -/
def stepWidth (E : Engine Pos) (bitsCount : Nat) (s : EncState Pos) : Nat :=
  min (log2 (E.legalMoves s.pos).length) (bitsCount - s.bitIndex)

/-- The window of the flattened file bits consumed by the encode step at
state `s`. -/
def stepChunk (E : Engine Pos) (fileBytes : List Nat) (bitsCount : Nat)
    (s : EncState Pos) : List Bool :=
  ((bitsOfBytes fileBytes).drop s.bitIndex).take (stepWidth E bitsCount s)

/-- The ordinal index of the move selected by the encode step at `s`. -/
def stepIndex (E : Engine Pos) (fileBytes : List Nat) (bitsCount : Nat)
    (s : EncState Pos) : Nat :=
  bitsToNat (stepChunk E fileBytes bitsCount s)

/-- The tail of a non-splitting encoder iteration once the pushed move `m`
and the step width `w` are known: push, advance the cursor by `w`, close
the part when the new position warrants it or at EOF. -/
def pushResult (E : Engine Pos) (ft fn : String) (bitsCount : Nat)
    (s : EncState Pos) (m : String) (w : Nat) : IterResult Pos :=
  let pos2 := E.push s.pos m
  let stack2 := s.stack ++ [m]
  let clamped := s.clamped ||
    decide (bitsCount - s.bitIndex < log2 (E.legalMoves s.pos).length)
  let idx := s.bitIndex + w
  let eof : Bool := decide (bitsCount ≤ idx)
  let close : Bool := decide ((E.legalMoves pos2).length ≤ 1)
    || E.insufficientMaterial pos2 || E.canClaimDraw pos2 || eof
  let s2 : EncState Pos :=
    if close then
      ⟨E.start, [], 0, idx, closePart ft fn s.parts stack2, clamped⟩
    else ⟨pos2, stack2, s.movesInGame + 1, idx, s.parts, clamped⟩
  if eof then .done s2.parts s2.clamped else .next s2

/-- The loop invariant of the encoder: the cursor is strictly inside the
file and the current position offers at least two legal moves. -/
def EncInv (E : Engine Pos) (bitsCount : Nat) (s : EncState Pos) : Prop :=
  s.bitIndex < bitsCount ∧ 2 ≤ (E.legalMoves s.pos).length

/-- The emitted part list is numbered `1, 2, …` in creation order. -/
def PartsNumbered (parts : List Part) : Prop :=
  parts.map (fun p => p.partNumber) = List.range' 1 parts.length

/-- Observer for the part list produced by one loop iteration. -/
def iterParts (r : IterResult Pos) (old : List Part) : List Part :=
  match r with
  | .next s2 => s2.parts
  | .done ps _ => ps
  | .fail _ => old

/-- The bit-level simulation invariant for the encode loop. -/
def SInv (E : Engine Pos) (fileBytes : List Nat) (s : EncState Pos) :
    Prop :=
  replay E E.start s.stack = s.pos ∧
  ∃ b1 b2, decodeBits E (s.parts.map (fun p => p.moves)) = some b1 ∧
    decodeBitsGame E E.start s.stack = some b2 ∧
    b1 ++ b2 = (bitsOfBytes fileBytes).take s.bitIndex

theorem natBitsAux_fuel (fuel1 : Nat) : ∀ (fuel2 n : Nat), n ≤ fuel1 →
    n ≤ fuel2 → natBitsAux fuel1 n = natBitsAux fuel2 n := by
  induction fuel1 with
  | zero =>
    intro fuel2 n h1 _
    interval_cases n
    cases fuel2 <;> simp [natBitsAux]
  | succ fuel1 ih =>
    intro fuel2 n h1 h2
    by_cases hz : n = 0
    · subst hz
      cases fuel2 <;> simp [natBitsAux]
    · have hpos : 1 ≤ n := Nat.pos_of_ne_zero hz
      cases fuel2 with
      | zero => omega
      | succ fuel2 =>
        simp only [natBitsAux, if_neg hz]
        have hdiv : n / 2 < n := Nat.div_lt_self hpos (by decide)
        rw [ih fuel2 (n / 2) (by omega) (by omega)]

theorem log2Aux_fuel (fuel1 : Nat) : ∀ (fuel2 n : Nat), n ≤ fuel1 →
    n ≤ fuel2 → log2Aux fuel1 n = log2Aux fuel2 n := by
  induction fuel1 with
  | zero =>
    intro fuel2 n h1 _
    interval_cases n
    cases fuel2 <;> simp [log2Aux]
  | succ fuel1 ih =>
    intro fuel2 n h1 h2
    by_cases hz : n < 2
    · cases fuel2 with
      | zero => interval_cases n <;> simp [log2Aux]
      | succ fuel2 => simp [log2Aux, hz]
    · cases fuel2 with
      | zero => omega
      | succ fuel2 =>
        simp only [log2Aux, if_neg hz]
        have hdiv : n / 2 < n := Nat.div_lt_self (by omega) (by decide)
        rw [ih fuel2 (n / 2) (by omega) (by omega)]

theorem log2_eq (n : Nat) : log2 n = Nat.log 2 n := by
  induction n using Nat.strong_induction_on with
  | _ n ih =>
    by_cases hz : n < 2
    · have hlog : Nat.log 2 n = 0 := by
        interval_cases n <;> simp [Nat.log]
      unfold log2
      interval_cases n <;> simp [log2Aux, hlog]
    · have hdiv : n / 2 < n := Nat.div_lt_self (by omega) (by decide)
      have h1 : log2 n = log2 (n / 2) + 1 := by
        unfold log2
        cases n with
        | zero => omega
        | succ m =>
          simp only [log2Aux, if_neg hz]
          rw [log2Aux_fuel m ((m + 1) / 2) ((m + 1) / 2) (by omega)
            (le_refl _)]
      have h2 : Nat.log 2 n = Nat.log 2 (n / 2) + 1 := by
        have := Nat.log_div_base 2 n
        have hpos : 0 < Nat.log 2 n := Nat.log_pos (by decide) (by omega)
        omega
      rw [h1, h2, ih (n / 2) hdiv]

theorem natBits_zero : natBits 0 = [] := rfl

theorem natBits_succ (n : Nat) (h : n ≠ 0) :
    natBits n = natBits (n / 2) ++ [n % 2 == 1] := by
  unfold natBits
  cases n with
  | zero => exact absurd rfl h
  | succ m =>
    simp only [natBitsAux, if_neg h]
    rw [natBitsAux_fuel m ((m + 1) / 2) ((m + 1) / 2) (by omega)
      (le_refl _)]

theorem natBits_length (n : Nat) (h : n ≠ 0) :
    (natBits n).length = Nat.log 2 n + 1 := by
  induction n using Nat.strong_induction_on with
  | _ n ih =>
    rw [natBits_succ n h, List.length_append, List.length_singleton]
    rcases Nat.lt_or_ge n 2 with h2 | h2
    · interval_cases n
      · exact absurd rfl h
      · simp [natBits_zero, Nat.log]
    · have hd : n / 2 ≠ 0 := by
        have : 1 ≤ n / 2 := (Nat.le_div_iff_mul_le (by decide)).2 (by omega)
        omega
      rw [ih (n / 2) (Nat.div_lt_self (by omega) (by decide)) hd]
      have hdiv := Nat.log_div_base 2 n
      have hlog : 0 < Nat.log 2 n := Nat.log_pos (by decide) h2
      omega

theorem pyBin_length (n : Nat) : (pyBin n).length = Nat.log 2 n + 1 := by
  unfold pyBin
  split
  · simp_all [Nat.log]
  · exact natBits_length n (by assumption)

theorem bitsToNat_nil : bitsToNat [] = 0 := rfl

theorem bitsToNat_foldl (l : List Bool) (a : Nat) :
    l.foldl (fun a b => 2 * a + (if b then 1 else 0)) a =
      a * 2 ^ l.length + bitsToNat l := by
  induction l generalizing a with
  | nil => simp [bitsToNat]
  | cons x xs ih =>
    show List.foldl _ (2 * a + (if x then 1 else 0)) xs = _
    rw [ih]
    have hx : bitsToNat (x :: xs) =
        (if x then 1 else 0) * 2 ^ xs.length + bitsToNat xs := by
      show List.foldl _ (2 * 0 + (if x then 1 else 0)) xs = _
      rw [ih]
      ring_nf
    rw [hx, List.length_cons]
    ring

theorem bitsToNat_append (l m : List Bool) :
    bitsToNat (l ++ m) = bitsToNat l * 2 ^ m.length + bitsToNat m := by
  show List.foldl _ 0 (l ++ m) = _
  rw [List.foldl_append, bitsToNat_foldl]
  rfl

theorem bitsToNat_concat (l : List Bool) (b : Bool) :
    bitsToNat (l ++ [b]) = 2 * bitsToNat l + (if b then 1 else 0) := by
  rw [bitsToNat_append]
  simp [bitsToNat]
  ring

theorem bitsToNat_natBits (n : Nat) : bitsToNat (natBits n) = n := by
  induction n using Nat.strong_induction_on with
  | _ n ih =>
    by_cases h : n = 0
    · simp [h, natBits_zero, bitsToNat_nil]
    · rw [natBits_succ n h, bitsToNat_concat,
        ih (n / 2) (Nat.div_lt_self (Nat.pos_of_ne_zero h) (by decide))]
      have := Nat.div_add_mod n 2
      rcases Nat.mod_two_eq_zero_or_one n with h2 | h2 <;> simp [h2] <;> omega

theorem bitsToNat_pyBin (n : Nat) : bitsToNat (pyBin n) = n := by
  unfold pyBin
  split
  · simp_all [bitsToNat]
  · exact bitsToNat_natBits n

theorem bitsToNat_replicate_false (k : Nat) :
    bitsToNat (List.replicate k false) = 0 := by
  induction k with
  | zero => rfl
  | succ k ih =>
    rw [List.replicate_succ]
    show bitsToNat ([false] ++ List.replicate k false) = 0
    rw [bitsToNat_append, ih]
    simp [bitsToNat]

theorem bitsToNat_padBits (w : Nat) (l : List Bool) :
    bitsToNat (padBits w l) = bitsToNat l := by
  unfold padBits
  rw [bitsToNat_append, bitsToNat_replicate_false]
  ring_nf

theorem bitsToNat_to_binary_string (n w : Nat) :
    bitsToNat (to_binary_string n w) = n := by
  unfold to_binary_string
  rw [bitsToNat_padBits, bitsToNat_pyBin]

theorem padBits_length (w : Nat) (l : List Bool) :
    (padBits w l).length = max w l.length := by
  unfold padBits
  simp [List.length_append]
  omega

theorem to_binary_string_length (n w : Nat) :
    (to_binary_string n w).length = max w (Nat.log 2 n + 1) := by
  unfold to_binary_string
  rw [padBits_length, pyBin_length]

/-- The length of `to_binary_string n w` is exactly `w` iff `n < 2 ^ w`
(for positive `w`); this is the boundary the encoder's map-building break
tests. -/
theorem to_binary_string_length_eq (n w : Nat) (hw : 1 ≤ w) :
    (to_binary_string n w).length = w ↔ n < 2 ^ w := by
  rw [to_binary_string_length]
  constructor
  · intro h
    have hlog : Nat.log 2 n + 1 ≤ w := by omega
    calc n < 2 ^ (Nat.log 2 n + 1) := Nat.lt_pow_succ_log_self (by decide) n
    _ ≤ 2 ^ w := Nat.pow_le_pow_right (by decide) hlog
  · intro h
    have : Nat.log 2 n + 1 ≤ w := by
      by_cases hn : n = 0
      · simp [hn, Nat.log]; omega
      · have hlt : Nat.log 2 n < w := Nat.log_lt_of_lt_pow hn h
        omega
    omega

theorem bitsFixed_length (w n : Nat) : (bitsFixed w n).length = w := by
  induction w generalizing n with
  | zero => rfl
  | succ w ih => simp [bitsFixed, ih]

theorem two_mul_add_mod (m b c : Nat) (hc : 0 < c) (hb : b < 2) :
    (2 * m + b) % (2 * c) = 2 * (m % c) + b := by
  conv_lhs => rw [← Nat.div_add_mod m c]
  have h1 : 2 * (c * (m / c) + m % c) + b =
      (2 * c) * (m / c) + (2 * (m % c) + b) := by ring
  rw [h1, Nat.mul_add_mod]
  exact Nat.mod_eq_of_lt (by have := Nat.mod_lt m hc; omega)

theorem bitsToNat_bitsFixed (w n : Nat) :
    bitsToNat (bitsFixed w n) = n % 2 ^ w := by
  induction w generalizing n with
  | zero => simp [bitsFixed, bitsToNat_nil, Nat.mod_one]
  | succ w ih =>
    rw [bitsFixed, bitsToNat_concat, ih]
    have hc : 0 < 2 ^ w := Nat.pos_pow_of_pos _ (by decide)
    have key := two_mul_add_mod (n / 2) (n % 2) (2 ^ w) hc
      (Nat.mod_lt _ (by decide))
    have hn : 2 * (n / 2) + n % 2 = n := by omega
    rw [hn] at key
    rw [pow_succ, Nat.mul_comm (2 ^ w) 2, key]
    rcases Nat.mod_two_eq_zero_or_one n with h2 | h2 <;> simp [h2]

theorem bitsFixed_bitsToNat (c : List Bool) :
    bitsFixed c.length (bitsToNat c) = c := by
  induction c using List.reverseRecOn with
  | nil => rfl
  | append_singleton ys b ih =>
    rw [bitsToNat_concat]
    simp only [List.length_append, List.length_singleton]
    rw [bitsFixed]
    have hd : (2 * bitsToNat ys + (if b then 1 else 0)) / 2 = bitsToNat ys := by
      cases b <;> simp <;> omega
    have hm : ((2 * bitsToNat ys + (if b then 1 else 0)) % 2 == 1) = b := by
      cases b <;> simp <;> omega
    rw [hd, hm, ih]

theorem bitsToNat_lt (c : List Bool) : bitsToNat c < 2 ^ c.length := by
  have h := bitsFixed_bitsToNat c
  have h2 := bitsToNat_bitsFixed c.length (bitsToNat c)
  rw [h] at h2
  have : 0 < 2 ^ c.length := Nat.pos_pow_of_pos _ (by decide)
  omega

/-- Bit strings of equal length with equal numeric value are equal. -/
theorem bitsToNat_injective (c d : List Bool) (hlen : c.length = d.length)
    (h : bitsToNat c = bitsToNat d) : c = d := by
  have hc := bitsFixed_bitsToNat c
  have hd := bitsFixed_bitsToNat d
  rw [← hc, ← hd, hlen, h]

/-- For `n < 2 ^ w` with `w ≥ 1`, `to_binary_string n w` is the canonical
width-`w` encoding of `n`. -/
theorem to_binary_string_eq_bitsFixed (n w : Nat) (hw : 1 ≤ w)
    (h : n < 2 ^ w) : to_binary_string n w = bitsFixed w n := by
  have h1 : (to_binary_string n w).length = w :=
    (to_binary_string_length_eq n w hw).2 h
  have h2 : bitsToNat (to_binary_string n w) = bitsToNat (bitsFixed w n) := by
    rw [bitsToNat_to_binary_string, bitsToNat_bitsFixed, Nat.mod_eq_of_lt h]
  exact bitsToNat_injective _ _ (by rw [h1, bitsFixed_length]) h2

theorem drainBytesAux_fuel (fuel1 : Nat) :
    ∀ (fuel2 : Nat) (acc : List Bool) (out : List Nat),
      acc.length ≤ fuel1 → acc.length ≤ fuel2 →
      drainBytesAux fuel1 acc out = drainBytesAux fuel2 acc out := by
  induction fuel1 with
  | zero =>
    intro fuel2 acc out h1 _
    have hlt : ¬ (8 ≤ acc.length) := by omega
    cases fuel2 <;> simp [drainBytesAux, hlt]
  | succ fuel1 ih =>
    intro fuel2 acc out h1 h2
    by_cases hge : 8 ≤ acc.length
    · cases fuel2 with
      | zero => omega
      | succ fuel2 =>
        simp only [drainBytesAux, if_pos hge]
        exact ih fuel2 (acc.drop 8) _ (by simp; omega) (by simp; omega)
    · cases fuel2 with
      | zero => simp [drainBytesAux, hge]
      | succ fuel2 => simp [drainBytesAux, hge]

/-- The source's recursion equation for `drainBytes`. -/
theorem drainBytes_eq (acc : List Bool) (out : List Nat) :
    drainBytes acc out =
      if 8 ≤ acc.length then
        drainBytes (acc.drop 8) (out ++ [bitsToNat (acc.take 8)])
      else (acc, out) := by
  by_cases hge : 8 ≤ acc.length
  · rw [if_pos hge]
    obtain ⟨n, hn⟩ : ∃ n, acc.length = n + 1 := ⟨acc.length - 1, by omega⟩
    show drainBytesAux acc.length acc out =
      drainBytesAux (acc.drop 8).length (acc.drop 8)
        (out ++ [bitsToNat (acc.take 8)])
    rw [hn]
    simp only [drainBytesAux, if_pos hge]
    apply drainBytesAux_fuel
    · rw [List.length_drop]
      omega
    · exact le_refl _
  · rw [if_neg hge]
    show drainBytesAux acc.length acc out = (acc, out)
    rcases hacc : acc.length with _ | n
    · rfl
    · simp [drainBytesAux, hge]

theorem bytesOfBitsAux_fuel (fuel1 : Nat) :
    ∀ (fuel2 : Nat) (l : List Bool), l.length ≤ fuel1 → l.length ≤ fuel2 →
      bytesOfBitsAux fuel1 l = bytesOfBitsAux fuel2 l := by
  induction fuel1 with
  | zero =>
    intro fuel2 l h1 _
    have hlt : ¬ (8 ≤ l.length) := by omega
    cases fuel2 <;> simp [bytesOfBitsAux, hlt]
  | succ fuel1 ih =>
    intro fuel2 l h1 h2
    by_cases hge : 8 ≤ l.length
    · cases fuel2 with
      | zero => omega
      | succ fuel2 =>
        simp only [bytesOfBitsAux, if_pos hge]
        rw [ih fuel2 (l.drop 8) (by simp; omega) (by simp; omega)]
    · cases fuel2 with
      | zero => simp [bytesOfBitsAux, hge]
      | succ fuel2 => simp [bytesOfBitsAux, hge]

/-- The recursion equation for `bytesOfBits`. -/
theorem bytesOfBits_eq (l : List Bool) :
    bytesOfBits l =
      if 8 ≤ l.length then bitsToNat (l.take 8) :: bytesOfBits (l.drop 8)
      else [] := by
  by_cases hge : 8 ≤ l.length
  · rw [if_pos hge]
    obtain ⟨n, hn⟩ : ∃ n, l.length = n + 1 := ⟨l.length - 1, by omega⟩
    show bytesOfBitsAux l.length l =
      bitsToNat (l.take 8) :: bytesOfBitsAux (l.drop 8).length (l.drop 8)
    rw [hn]
    simp only [bytesOfBitsAux, if_pos hge]
    congr 1
    apply bytesOfBitsAux_fuel
    · rw [List.length_drop]
      omega
    · exact le_refl _
  · rw [if_neg hge]
    show bytesOfBitsAux l.length l = []
    rcases hacc : l.length with _ | n
    · rfl
    · simp [bytesOfBitsAux, hge]

/-!
## Claims C4 and C6: empty input, the index→bit-string map
-/

/-- C4: `encode` applied to an empty byte buffer fails with the
`InvalidInput`-style error (`ValueError("File is empty")` in the source);
no parts are produced for empty input. -/
theorem C4_encode_empty_invalid (Pos : Type) (E : Engine Pos)
    (ft fn : String) (fuel : Nat) :
    encode E ft fn [] fuel = some (.error .invalidInput) ∧
    ∀ r : EncodeResult, encode E ft fn [] fuel ≠ some (.ok r) := by
  refine ⟨rfl, ?_⟩
  intro r h
  simp [encode] at h

theorem to_binary_string_length_le (n w : Nat) (hw : 1 ≤ w) (h : n < 2 ^ w) :
    ¬ w < (to_binary_string n w).length := by
  rw [(to_binary_string_length_eq n w hw).2 h]
  omega

theorem to_binary_string_length_gt (w : Nat) :
    w < (to_binary_string (2 ^ w) w).length := by
  rw [to_binary_string_length]
  have : Nat.log 2 (2 ^ w) = w := Nat.log_pow (by decide) w
  omega

theorem buildMoveBitsFrom_spec (w : Nat) (hw : 1 ≤ w) :
    ∀ (moves : List String) (i : Nat), i ≤ 2 ^ w →
      buildMoveBitsFrom w i moves =
        (moves.take (2 ^ w - i)).zip
          (((List.range' i (min (2 ^ w - i) moves.length)).map
            (fun k => to_binary_string k w))) := by
  intro moves
  induction moves with
  | nil => intro i _; simp [buildMoveBitsFrom]
  | cons m rest ih =>
    intro i hi
    rcases Nat.lt_or_ge i (2 ^ w) with hlt | hge
    · rw [buildMoveBitsFrom]
      simp only [to_binary_string_length_le i w hw hlt, if_false]
      have hsub : 2 ^ w - i = (2 ^ w - (i + 1)) + 1 := by omega
      rw [hsub]
      have hmin : min ((2 ^ w - (i + 1)) + 1) (m :: rest).length =
          min (2 ^ w - (i + 1)) rest.length + 1 := by
        simp [List.length_cons]
        omega
      rw [hmin, List.take_succ_cons, List.range'_succ, List.map_cons,
        List.zip_cons_cons, ih (i + 1) (by omega)]
    · have hEq : i = 2 ^ w := by omega
      subst hEq
      rw [buildMoveBitsFrom]
      simp [to_binary_string_length_gt w]

/-- C6: for width `w = min(int(log2(len(legal_moves))), remaining)` of an
encode step (`w ≥ 1` always holds there: the loop only runs on positions
with at least two legal moves and with input bits remaining), the
index→bit-string map contains exactly the moves at ordinal indices
`i < 2 ^ w`, each paired with `bin(i)` zero-padded to `w` bits, and no two
entries of the map share a bit string. -/
theorem C6_moveBits_map (moves : List String) (nLegal rem : Nat)
    (hn : 2 ≤ nLegal) (hrem : 1 ≤ rem) :
    buildMoveBits moves (min (log2 nLegal) rem) =
      (moves.take (2 ^ min (log2 nLegal) rem)).zip
        (((List.range
            (min (2 ^ min (log2 nLegal) rem) moves.length)).map
          (fun k => to_binary_string k (min (log2 nLegal) rem)))) ∧
    ((buildMoveBits moves (min (log2 nLegal) rem)).map
      (fun e => e.2)).Nodup := by
  have hw : 1 ≤ min (log2 nLegal) rem := by
    rw [log2_eq]
    have : 0 < Nat.log 2 nLegal := Nat.log_pos (by decide) hn
    omega
  set w := min (log2 nLegal) rem with hwdef
  have hmain := buildMoveBitsFrom_spec w hw moves 0 (Nat.zero_le _)
  simp only [Nat.sub_zero, ← List.range_eq_range'] at hmain
  constructor
  · rw [buildMoveBits, hmain]
  · rw [buildMoveBits, hmain]
    have hlen : ((List.range (min (2 ^ w) moves.length)).map
        (fun k => to_binary_string k w)).length ≤
        (moves.take (2 ^ w)).length := by
      simp
    rw [List.map_snd_zip _ _ hlen]
    apply List.Nodup.map
    · intro a b hab
      have := congrArg bitsToNat hab
      rwa [bitsToNat_to_binary_string, bitsToNat_to_binary_string] at this
    · exact List.nodup_range _

theorem replay_nil (E : Engine Pos) (p : Pos) : replay E p [] = p := rfl

theorem replay_cons (E : Engine Pos) (p : Pos) (m : String)
    (ms : List String) : replay E p (m :: ms) = replay E (E.push p m) ms :=
  rfl

theorem gameLegal_cons (E : Engine Pos) (p : Pos) (m : String)
    (ms : List String) :
    GameLegal E p (m :: ms) ↔
      m ∈ E.legalMoves p ∧ GameLegal E (E.push p m) ms := by
  constructor
  · intro h
    refine ⟨?_, ?_⟩
    · have := h 0 (by simp)
      simpa [replay_nil] using this
    · intro j hj
      have := h (j + 1) (by simp; omega)
      simpa [List.take_succ_cons, replay_cons] using this
  · rintro ⟨h1, h2⟩ j hj
    cases j with
    | zero => simpa [replay_nil] using h1
    | succ j =>
      have := h2 j (by simpa using hj)
      simpa [List.take_succ_cons, replay_cons] using this

/-- A found index is a genuine occurrence of the move. -/
theorem findIdx?_move_mem (l : List String) (m : String) (i : Nat)
    (hfind : l.findIdx? (fun u => u == m) = some i) :
    m ∈ l ∧ ∃ h : i < l.length, l.get ⟨i, h⟩ = m := by
  obtain ⟨hlt, heq⟩ := List.findIdx?_eq_some_iff_findIdx_eq.mp hfind
  have hp := List.findIdx_get (p := fun u => u == m) (w := heq ▸ hlt)
  rw [beq_iff_eq] at hp
  refine ⟨?_, ⟨heq ▸ hlt, ?_⟩⟩
  · rw [← hp]
    exact List.get_mem _ _ _
  · revert hp
    subst heq
    intro hp
    exact hp

theorem findIdx?_none_not_mem (l : List String) (m : String)
    (hfind : l.findIdx? (fun u => u == m) = none) : m ∉ l := by
  intro hm
  have := List.findIdx?_eq_none_iff.mp hfind m hm
  simp at this

theorem decodeGame_ok_iff (E : Engine Pos) (ms : List String) :
    ∀ (p : Pos) (acc : List Bool) (out : List Nat),
      (∃ r, decodeGame E p ms acc out = .ok r) ↔ GameLegal E p ms := by
  induction ms with
  | nil =>
    intro p acc out
    simp [decodeGame, GameLegal]
  | cons m rest ih =>
    intro p acc out
    rw [gameLegal_cons]
    simp only [decodeGame]
    rcases hfind : (E.legalMoves p).findIdx? (fun u => u == m) with _ | i
    · simp only [hfind]
      constructor
      · rintro ⟨r, hr⟩
        simp at hr
      · rintro ⟨h1, _⟩
        exact absurd h1 (findIdx?_none_not_mem _ _ hfind)
    · simp only [hfind]
      constructor
      · rintro ⟨r, hr⟩
        exact ⟨(findIdx?_move_mem _ _ _ hfind).1,
          (ih (E.push p m) _ _).1 ⟨r, hr⟩⟩
      · rintro ⟨_, h2⟩
        exact (ih (E.push p m) _ _).2 h2

theorem allLegal_cons (E : Engine Pos) (g : List String)
    (gs : List (List String)) :
    AllLegal E (g :: gs) ↔ GameLegal E E.start g ∧ AllLegal E gs := by
  constructor
  · intro h
    exact ⟨h 0 (by simp), fun k hk => h (k + 1) (by simp; omega)⟩
  · rintro ⟨h1, h2⟩ k hk
    cases k with
    | zero => exact h1
    | succ k => exact h2 k (by simpa using hk)

theorem decodeAll_ok_iff (E : Engine Pos) (gs : List (List String)) :
    ∀ (acc : List Bool) (out : List Nat),
      (∃ bs, decodeAll E gs acc out = .ok bs) ↔ AllLegal E gs := by
  induction gs with
  | nil =>
    intro acc out
    simp [decodeAll, AllLegal]
  | cons g rest ih =>
    intro acc out
    rw [allLegal_cons]
    simp only [decodeAll]
    rcases hg : decodeGame E E.start g acc out with e | ⟨acc2, out2⟩
    · constructor
      · rintro ⟨bs, hbs⟩
        simp at hbs
      · rintro ⟨h1, _⟩
        have := (decodeGame_ok_iff E g E.start acc out).2 h1
        rw [hg] at this
        rcases this with ⟨r, hr⟩
        simp at hr
    · constructor
      · rintro ⟨bs, hbs⟩
        refine ⟨(decodeGame_ok_iff E g E.start acc out).1 ⟨_, hg⟩, ?_⟩
        exact (ih acc2 out2).1 ⟨bs, hbs⟩
      · rintro ⟨_, h2⟩
        exact (ih acc2 out2).2 h2

theorem hasIllegal_iff_not_allLegal (E : Engine Pos)
    (gs : List (List String)) :
    HasIllegalMove E gs ↔ ¬ AllLegal E gs := by
  unfold HasIllegalMove AllLegal GameLegal
  push_neg
  constructor
  · rintro ⟨k, hk, j, hj, h⟩
    exact ⟨k, hk, j, hj, h⟩
  · rintro ⟨k, hk, j, hj, h⟩
    exact ⟨k, hk, j, hj, h⟩

/-- C3: `decode` fails with the `CorruptData`-style error (the re-raised
`ValueError` from `.index`) exactly when some move of the input is absent
from the legal-move set enumerated at its step; on such inputs it never
returns an output buffer, and on fully legal inputs it never fails. -/
theorem C3_decode_corrupt (Pos : Type) (E : Engine Pos)
    (gs : List (List String)) :
    (∃ e, decode E gs = .error e) ↔ HasIllegalMove E gs := by
  rw [hasIllegal_iff_not_allLegal, ← decodeAll_ok_iff E gs [] []]
  unfold decode
  rcases decodeAll E gs [] [] with e | bs
  · simp
  · simp

theorem bitsOfBytes_nil : bitsOfBytes [] = [] := rfl

theorem bitsOfBytes_cons (b : Nat) (bs : List Nat) :
    bitsOfBytes (b :: bs) = to_binary_string b 8 ++ bitsOfBytes bs := by
  simp [bitsOfBytes]

theorem to_binary_string_byte_length (b : Nat) (hb : b < 256) :
    (to_binary_string b 8).length = 8 :=
  (to_binary_string_length_eq b 8 (by decide)).2 hb

theorem bytesOk_cons (b : Nat) (bs : List Nat) (h : BytesOk (b :: bs)) :
    b < 256 ∧ BytesOk bs := by
  exact ⟨h b (by simp), fun x hx => h x (by simp [hx])⟩

theorem bitsOfBytes_length (bs : List Nat) (h : BytesOk bs) :
    (bitsOfBytes bs).length = 8 * bs.length := by
  induction bs with
  | nil => simp [bitsOfBytes_nil]
  | cons b rest ih =>
    obtain ⟨hb, hrest⟩ := bytesOk_cons b rest h
    rw [bitsOfBytes_cons, List.length_append, ih hrest,
      to_binary_string_byte_length b hb, List.length_cons]
    ring

theorem bitsOfBytes_drop (k : Nat) :
    ∀ (bs : List Nat), BytesOk bs →
      bitsOfBytes (bs.drop k) = (bitsOfBytes bs).drop (8 * k) := by
  induction k with
  | zero => intro bs _; simp
  | succ k ih =>
    intro bs h
    cases bs with
    | nil => simp [bitsOfBytes_nil]
    | cons b rest =>
      obtain ⟨hb, hrest⟩ := bytesOk_cons b rest h
      have hlen := to_binary_string_byte_length b hb
      have hdl : List.drop 8 (to_binary_string b 8 ++ bitsOfBytes rest) =
          bitsOfBytes rest := List.drop_left' hlen
      calc bitsOfBytes (List.drop (k + 1) (b :: rest))
          = bitsOfBytes (List.drop k rest) := by rw [List.drop_succ_cons]
        _ = List.drop (8 * k) (bitsOfBytes rest) := ih rest hrest
        _ = List.drop (8 * k)
            (List.drop 8 (to_binary_string b 8 ++ bitsOfBytes rest)) := by
            rw [hdl]
        _ = List.drop (8 * (k + 1))
            (to_binary_string b 8 ++ bitsOfBytes rest) := by
            rw [List.drop_drop]; congr 1; ring
        _ = List.drop (8 * (k + 1)) (bitsOfBytes (b :: rest)) := by
            rw [bitsOfBytes_cons]

theorem bitsOfBytes_take (k : Nat) :
    ∀ (bs : List Nat), BytesOk bs →
      bitsOfBytes (bs.take k) = (bitsOfBytes bs).take (8 * k) := by
  induction k with
  | zero => intro bs _; simp [bitsOfBytes_nil]
  | succ k ih =>
    intro bs h
    cases bs with
    | nil => simp [bitsOfBytes_nil]
    | cons b rest =>
      obtain ⟨hb, hrest⟩ := bytesOk_cons b rest h
      have hlen := to_binary_string_byte_length b hb
      calc bitsOfBytes (List.take (k + 1) (b :: rest))
          = to_binary_string b 8 ++ bitsOfBytes (List.take k rest) := by
            rw [List.take_succ_cons, bitsOfBytes_cons]
        _ = to_binary_string b 8 ++ List.take (8 * k) (bitsOfBytes rest) := by
            rw [ih rest hrest]
        _ = List.take (8 * (k + 1))
            (to_binary_string b 8 ++ bitsOfBytes rest) := by
            rw [List.take_append_eq_append_take]
            congr 1
            · rw [List.take_of_length_le (by rw [hlen]; omega)]
            · congr 1; rw [hlen]; omega
        _ = List.take (8 * (k + 1)) (bitsOfBytes (b :: rest)) := by
            rw [bitsOfBytes_cons]

theorem bytesOk_drop (k : Nat) (bs : List Nat) (h : BytesOk bs) :
    BytesOk (bs.drop k) :=
  fun b hb => h b (List.mem_of_mem_drop hb)

/-- On every encode step the chunk is exactly the width-`w` window of the
flattened file bits at the cursor (the two-byte pool always covers it). -/
theorem nextChunk_spec (fileBytes : List Nat) (h : BytesOk fileBytes)
    (bitIndex w : Nat) (hw7 : w ≤ 7)
    (hwrem : w ≤ fileBytes.length * 8 - bitIndex) :
    nextChunk fileBytes bitIndex w =
      ((bitsOfBytes fileBytes).drop bitIndex).take w ∧
    (nextChunk fileBytes bitIndex w).length = w := by
  have hr : bitIndex % 8 < 8 := Nat.mod_lt _ (by decide)
  have hpool : filePool fileBytes bitIndex =
      ((bitsOfBytes fileBytes).drop (8 * (bitIndex / 8))).take 16 := by
    unfold filePool
    rw [bitsOfBytes_take 2 _ (bytesOk_drop _ _ h),
      bitsOfBytes_drop _ _ h]
  have hmain : nextChunk fileBytes bitIndex w =
      ((bitsOfBytes fileBytes).drop bitIndex).take w := by
    unfold nextChunk
    rw [hpool, List.drop_take, List.drop_drop, List.take_take]
    have h1 : 8 * (bitIndex / 8) + bitIndex % 8 = bitIndex := by
      have := Nat.div_add_mod bitIndex 8
      omega
    rw [h1, Nat.min_eq_left (by omega)]
  refine ⟨hmain, ?_⟩
  rw [hmain, List.length_take, List.length_drop,
    bitsOfBytes_length _ h]
  omega

/-- The encoder's first-match scan over the truncated map finds exactly
the move whose ordinal index is the numeric value of the chunk. -/
theorem findMatch_from (w : Nat) (hw : 1 ≤ w) (c : List Bool)
    (hc : c.length = w) :
    ∀ (l : List String) (i : Nat), (hle : i ≤ bitsToNat c) →
      (hin : bitsToNat c < i + l.length) →
      findMatch (buildMoveBitsFrom w i l) c =
        some (l.get ⟨bitsToNat c - i, by omega⟩) := by
  have hclt : bitsToNat c < 2 ^ w := hc ▸ bitsToNat_lt c
  have hcfix : bitsFixed w (bitsToNat c) = c := hc ▸ bitsFixed_bitsToNat c
  intro l
  induction l with
  | nil => intro i h1 h2; simp at h2; omega
  | cons m rest ih =>
    intro i h1 h2
    have hilt : i < 2 ^ w := by omega
    rw [buildMoveBitsFrom]
    simp only [to_binary_string_length_le i w hw hilt, if_false]
    rcases Nat.eq_or_lt_of_le h1 with heq | hlt
    · subst heq
      unfold findMatch
      rw [List.find?_cons_of_pos _ (by
        simp only [beq_iff_eq]
        rw [to_binary_string_eq_bitsFixed _ _ hw hilt, hcfix])]
      simp
    · unfold findMatch
      rw [List.find?_cons_of_neg _ (by
        simp only [beq_iff_eq]
        rw [to_binary_string_eq_bitsFixed _ _ hw hilt]
        intro hcontra
        have := congrArg bitsToNat hcontra
        rw [bitsToNat_bitsFixed, Nat.mod_eq_of_lt hilt] at this
        omega)]
      have hrec := ih (i + 1) (by omega) (by simp at h2 ⊢; omega)
      unfold findMatch at hrec
      rw [hrec]
      congr 1
      have hsub : bitsToNat c - i = (bitsToNat c - (i + 1)) + 1 := by omega
      simp only [hsub, List.get_cons_succ]

theorem stepWidth_pos (E : Engine Pos) (bitsCount : Nat) (s : EncState Pos)
    (hidx : s.bitIndex < bitsCount) (hn : 2 ≤ (E.legalMoves s.pos).length) :
    1 ≤ stepWidth E bitsCount s := by
  unfold stepWidth
  rw [log2_eq]
  have h1 : 0 < Nat.log 2 (E.legalMoves s.pos).length :=
    Nat.log_pos (by decide) hn
  omega

theorem stepWidth_le_seven (E : Engine Pos) (bitsCount : Nat)
    (s : EncState Pos) (hb : (E.legalMoves s.pos).length < 256) :
    stepWidth E bitsCount s ≤ 7 := by
  unfold stepWidth
  rw [log2_eq]
  have h1 : Nat.log 2 (E.legalMoves s.pos).length < 8 := by
    by_cases hz : (E.legalMoves s.pos).length = 0
    · simp [hz, Nat.log]
    · exact Nat.log_lt_of_lt_pow hz (by omega)
  omega

theorem two_pow_stepWidth_le (E : Engine Pos) (bitsCount : Nat)
    (s : EncState Pos) (hn : 2 ≤ (E.legalMoves s.pos).length) :
    2 ^ stepWidth E bitsCount s ≤ (E.legalMoves s.pos).length := by
  have h1 : stepWidth E bitsCount s ≤
      Nat.log 2 (E.legalMoves s.pos).length := by
    unfold stepWidth
    rw [log2_eq]
    exact Nat.min_le_left _ _
  calc 2 ^ stepWidth E bitsCount s
      ≤ 2 ^ Nat.log 2 (E.legalMoves s.pos).length :=
        Nat.pow_le_pow_right (by decide) h1
    _ ≤ (E.legalMoves s.pos).length :=
        Nat.pow_log_le_self 2 (by omega)

/-- The second projections of the truncated move map are the fixed-width
encodings of `0, 1, …` in order. -/
theorem buildMoveBits_snd (l : List String) (w : Nat) (hw : 1 ≤ w) :
    (buildMoveBits l w).map (fun e => e.2) =
      (List.range (min (2 ^ w) l.length)).map
        (fun k => to_binary_string k w) := by
  have hmain := buildMoveBitsFrom_spec w hw l 0 (Nat.zero_le _)
  simp only [Nat.sub_zero, ← List.range_eq_range'] at hmain
  rw [buildMoveBits, hmain, List.map_snd_zip]
  simp

/-- A predicate hit exactly once: counting equality matches in a
duplicate-free list containing the value gives one. -/
theorem countP_eq_one_of_nodup_mem (L : List (List Bool)) (C : List Bool)
    (hnd : L.Nodup) (hm : C ∈ L) : L.countP (fun b => b == C) = 1 := by
  induction L with
  | nil => simp at hm
  | cons x xs ih =>
    rw [List.countP_cons]
    rcases List.mem_cons.mp hm with rfl | hm2
    · have hx : C ∉ xs := (List.nodup_cons.mp hnd).1
      have hz : xs.countP (fun b => b == C) = 0 := by
        rw [List.countP_eq_zero]
        intro a ha
        simp only [beq_iff_eq]
        intro h
        exact hx (h ▸ ha)
      simp [hz]
    · have hne : x ≠ C := by
        rintro rfl
        exact (List.nodup_cons.mp hnd).1 hm2
      have hrec := ih (List.nodup_cons.mp hnd).2 hm2
      simp [hrec, hne]

/-- The heart of the encoder analysis: at every loop state satisfying the
invariant whose iteration is not a 100-move split, the chunk covers
exactly `stepWidth` bits, the move map is matched by exactly one entry,
and the iteration pushes precisely the move at ordinal index `stepIndex`
before advancing the cursor by `stepWidth`. -/
theorem encodeIter_push (E : Engine Pos) (hE : GoodEngine E)
    (ft fn : String) (fileBytes : List Nat) (hbytes : BytesOk fileBytes)
    (s : EncState Pos) (hidx : s.bitIndex < fileBytes.length * 8)
    (hn : 2 ≤ (E.legalMoves s.pos).length)
    (h100 : ¬ 100 ≤ s.movesInGame) :
    (stepChunk E fileBytes (fileBytes.length * 8) s).length =
      stepWidth E (fileBytes.length * 8) s ∧
    nextChunk fileBytes s.bitIndex (stepWidth E (fileBytes.length * 8) s) =
      stepChunk E fileBytes (fileBytes.length * 8) s ∧
    (buildMoveBits (E.legalMoves s.pos)
        (stepWidth E (fileBytes.length * 8) s)).countP
      (fun e => e.2 == stepChunk E fileBytes (fileBytes.length * 8) s) = 1 ∧
    ∃ hi : stepIndex E fileBytes (fileBytes.length * 8) s <
        (E.legalMoves s.pos).length,
      findMatch (buildMoveBits (E.legalMoves s.pos)
          (stepWidth E (fileBytes.length * 8) s))
        (stepChunk E fileBytes (fileBytes.length * 8) s) =
        some ((E.legalMoves s.pos).get
          ⟨stepIndex E fileBytes (fileBytes.length * 8) s, hi⟩) ∧
      encodeIter E ft fn fileBytes (fileBytes.length * 8) s =
        pushResult E ft fn (fileBytes.length * 8) s
          ((E.legalMoves s.pos).get
            ⟨stepIndex E fileBytes (fileBytes.length * 8) s, hi⟩)
          (stepWidth E (fileBytes.length * 8) s) := by
  have hw1 : 1 ≤ stepWidth E (fileBytes.length * 8) s :=
    stepWidth_pos E _ s hidx hn
  have hw7 : stepWidth E (fileBytes.length * 8) s ≤ 7 :=
    stepWidth_le_seven E _ s (hE.bounded s.pos)
  have hwrem : stepWidth E (fileBytes.length * 8) s ≤
      fileBytes.length * 8 - s.bitIndex := Nat.min_le_right _ _
  obtain ⟨hchunk, hcl⟩ := nextChunk_spec fileBytes hbytes s.bitIndex
    (stepWidth E (fileBytes.length * 8) s) hw7 hwrem
  have hclen : (stepChunk E fileBytes (fileBytes.length * 8) s).length =
      stepWidth E (fileBytes.length * 8) s := by
    rw [stepChunk, ← hchunk]
    exact hcl
  have hclt : stepIndex E fileBytes (fileBytes.length * 8) s <
      2 ^ stepWidth E (fileBytes.length * 8) s := by
    have := bitsToNat_lt (stepChunk E fileBytes (fileBytes.length * 8) s)
    rwa [hclen] at this
  have hpow : 2 ^ stepWidth E (fileBytes.length * 8) s ≤
      (E.legalMoves s.pos).length := two_pow_stepWidth_le E _ s hn
  have hi : stepIndex E fileBytes (fileBytes.length * 8) s <
      (E.legalMoves s.pos).length := by omega
  have hcfix : to_binary_string
      (stepIndex E fileBytes (fileBytes.length * 8) s)
      (stepWidth E (fileBytes.length * 8) s) =
      stepChunk E fileBytes (fileBytes.length * 8) s := by
    rw [to_binary_string_eq_bitsFixed _ _ hw1 hclt, stepIndex]
    have := bitsFixed_bitsToNat (stepChunk E fileBytes (fileBytes.length * 8) s)
    rwa [hclen] at this
  have hfind : findMatch
      (buildMoveBits (E.legalMoves s.pos)
        (stepWidth E (fileBytes.length * 8) s))
      (stepChunk E fileBytes (fileBytes.length * 8) s) =
      some ((E.legalMoves s.pos).get
        ⟨stepIndex E fileBytes (fileBytes.length * 8) s, hi⟩) := by
    unfold buildMoveBits
    rw [findMatch_from (stepWidth E (fileBytes.length * 8) s) hw1
      (stepChunk E fileBytes (fileBytes.length * 8) s) hclen
      (E.legalMoves s.pos) 0 (Nat.zero_le _) (by unfold stepIndex at hi; omega)]
    refine congrArg some (congrArg _ (Fin.eq_of_val_eq ?_))
    show bitsToNat (stepChunk E fileBytes (fileBytes.length * 8) s) - 0 =
      stepIndex E fileBytes (fileBytes.length * 8) s
    unfold stepIndex
    omega
  refine ⟨hclen, hchunk, ?_, hi, hfind, ?_⟩
  · have hmin : min (2 ^ stepWidth E (fileBytes.length * 8) s)
        (E.legalMoves s.pos).length =
        2 ^ stepWidth E (fileBytes.length * 8) s := by omega
    have hmapsnd := buildMoveBits_snd (E.legalMoves s.pos)
      (stepWidth E (fileBytes.length * 8) s) hw1
    have hcmem : stepChunk E fileBytes (fileBytes.length * 8) s ∈
        (buildMoveBits (E.legalMoves s.pos)
          (stepWidth E (fileBytes.length * 8) s)).map (fun e => e.2) := by
      rw [hmapsnd, hmin]
      exact List.mem_map.2 ⟨stepIndex E fileBytes (fileBytes.length * 8) s,
        List.mem_range.2 hclt, hcfix⟩
    have hnd : ((buildMoveBits (E.legalMoves s.pos)
        (stepWidth E (fileBytes.length * 8) s)).map
          (fun e => e.2)).Nodup := by
      rw [hmapsnd]
      apply List.Nodup.map
      · intro a b hab
        have := congrArg bitsToNat hab
        rwa [bitsToNat_to_binary_string, bitsToNat_to_binary_string] at this
      · exact List.nodup_range _
    have key : ∀ (L : List (String × List Bool)) (C : List Bool),
        L.countP (fun e => e.2 == C) =
          (L.map (fun e => e.2)).countP (fun b => b == C) := by
      intro L C
      rw [List.countP_map]
      rfl
    rw [key]
    exact countP_eq_one_of_nodup_mem _ _ hnd hcmem
  · have hne : ¬ ((E.legalMoves s.pos).length = 0) := by omega
    simp only [encodeIter]
    rw [if_neg h100, if_neg hne]
    have hfold : min (log2 (E.legalMoves s.pos).length)
        (fileBytes.length * 8 - s.bitIndex) =
        stepWidth E (fileBytes.length * 8) s := rfl
    have hfold2 : List.take (stepWidth E (fileBytes.length * 8) s)
        (List.drop s.bitIndex (bitsOfBytes fileBytes)) =
        stepChunk E fileBytes (fileBytes.length * 8) s := rfl
    rw [hfold, hchunk, hfold2, hfind]
    rfl

/-!
## Loop invariant, termination, part numbering
-/

/-- With enough fuel, from any state satisfying the invariant the encode
loop reaches the EOF break and returns its parts. -/
theorem encodeLoop_ok (E : Engine Pos) (hE : GoodEngine E) (ft fn : String)
    (fileBytes : List Nat) (hbytes : BytesOk fileBytes) :
    ∀ (fuel : Nat) (s : EncState Pos),
      EncInv E (fileBytes.length * 8) s →
      2 * (fileBytes.length * 8 - s.bitIndex) +
        (if 100 ≤ s.movesInGame then 1 else 0) < fuel →
      ∃ parts clamped,
        encodeLoop E ft fn fileBytes (fileBytes.length * 8) fuel s =
          some (.ok (parts, clamped)) := by
  intro fuel
  induction fuel with
  | zero => intro s _ h; omega
  | succ fuel ih =>
    intro s hInv hfuel
    obtain ⟨hidx, hn⟩ := hInv
    by_cases h100 : 100 ≤ s.movesInGame
    · rw [if_pos h100] at hfuel
      have hiter : encodeIter E ft fn fileBytes (fileBytes.length * 8) s =
          .next ⟨E.start, [], 0, s.bitIndex,
            closePart ft fn s.parts s.stack, s.clamped⟩ := by
        simp only [encodeIter]
        rw [if_pos h100]
      rw [encodeLoop, hiter]
      exact ih _ ⟨hidx, hE.startMoves⟩ (by simp; omega)
    · rw [if_neg h100] at hfuel
      have hw1 : 1 ≤ stepWidth E (fileBytes.length * 8) s :=
        stepWidth_pos E _ s hidx hn
      have hwrem : stepWidth E (fileBytes.length * 8) s ≤
          fileBytes.length * 8 - s.bitIndex := Nat.min_le_right _ _
      obtain ⟨hclen, hchunk, hcnt, hi, hfind, hiter⟩ :=
        encodeIter_push E hE ft fn fileBytes hbytes s hidx hn h100
      rw [encodeLoop, hiter]
      unfold pushResult
      by_cases heof : fileBytes.length * 8 ≤
          s.bitIndex + stepWidth E (fileBytes.length * 8) s
      · rw [if_pos (by simp [heof])]
        exact ⟨_, _, rfl⟩
      · rw [if_neg (by simp [heof])]
        rcases hcb : (decide ((E.legalMoves (E.push s.pos
            ((E.legalMoves s.pos).get
              ⟨stepIndex E fileBytes (fileBytes.length * 8) s, hi⟩))).length
              ≤ 1)
            || E.insufficientMaterial (E.push s.pos
              ((E.legalMoves s.pos).get
                ⟨stepIndex E fileBytes (fileBytes.length * 8) s, hi⟩))
            || E.canClaimDraw (E.push s.pos
              ((E.legalMoves s.pos).get
                ⟨stepIndex E fileBytes (fileBytes.length * 8) s, hi⟩))
            || decide (fileBytes.length * 8 ≤
              s.bitIndex + stepWidth E (fileBytes.length * 8) s)) with
          hfalse | htrue
        · rw [if_neg (by simp)]
          apply ih
          · constructor
            · show s.bitIndex + stepWidth E (fileBytes.length * 8) s <
                fileBytes.length * 8
              omega
            · show 2 ≤ (E.legalMoves (E.push s.pos
                ((E.legalMoves s.pos).get
                  ⟨stepIndex E fileBytes (fileBytes.length * 8) s, hi⟩))).length
              have hng : ¬ ((E.legalMoves (E.push s.pos
                  ((E.legalMoves s.pos).get
                    ⟨stepIndex E fileBytes (fileBytes.length * 8) s,
                      hi⟩))).length ≤ 1) := by
                intro hle
                rw [decide_eq_true hle] at hcb
                simp at hcb
              omega
          · show 2 * (fileBytes.length * 8 -
                (s.bitIndex + stepWidth E (fileBytes.length * 8) s)) +
              (if 100 ≤ s.movesInGame + 1 then 1 else 0) < fuel
            by_cases hm : 100 ≤ s.movesInGame + 1 <;> simp [hm] <;> omega
        · rw [if_pos rfl]
          apply ih
          · constructor
            · show s.bitIndex + stepWidth E (fileBytes.length * 8) s <
                fileBytes.length * 8
              omega
            · exact hE.startMoves
          · show 2 * (fileBytes.length * 8 -
                (s.bitIndex + stepWidth E (fileBytes.length * 8) s)) +
              (if 100 ≤ 0 then 1 else 0) < fuel
            simp
            omega

/-- C10: for every non-empty well-formed input buffer the encoder loop
terminates: `2 * totalFileBits + 1` iterations of fuel always reach the
EOF break, because every non-splitting iteration pushes a move and
advances the cursor by at least one bit, and 100-move splits cannot occur
twice in a row. -/
theorem C10_encode_terminates (Pos : Type) (E : Engine Pos)
    (hE : GoodEngine E) (ft fn : String) (fileBytes : List Nat)
    (hne : fileBytes ≠ []) (hbytes : BytesOk fileBytes) :
    ∃ r, encode E ft fn fileBytes (2 * (fileBytes.length * 8) + 1) =
      some (.ok r) := by
  have hlen : 1 ≤ fileBytes.length := by
    cases fileBytes with
    | nil => simp at hne
    | cons b bs => simp
  obtain ⟨parts, clamped, hloop⟩ := encodeLoop_ok E hE ft fn fileBytes
    hbytes (2 * (fileBytes.length * 8) + 1) (initState E)
    ⟨by show (0 : Nat) < fileBytes.length * 8; omega, hE.startMoves⟩
    (by show 2 * (fileBytes.length * 8 - 0) + (if 100 ≤ 0 then 1 else 0) <
      2 * (fileBytes.length * 8) + 1; simp)
  unfold encode
  rw [if_neg (by omega), hloop]
  exact ⟨_, rfl⟩

theorem partsNumbered_close (ft fn : String) (parts : List Part)
    (stack : List String) (h : PartsNumbered parts) :
    PartsNumbered (closePart ft fn parts stack) := by
  unfold PartsNumbered closePart at *
  rw [List.map_append, h]
  simp [List.range'_1_concat]
  omega

/-- Each iteration leaves the part list unchanged or closes exactly one
new part via `closePart`; the EOF break always closes. -/
theorem encodeIter_parts_shape (E : Engine Pos) (ft fn : String)
    (fileBytes : List Nat) (bitsCount : Nat) (s : EncState Pos) :
    (∀ s2, encodeIter E ft fn fileBytes bitsCount s = .next s2 →
      s2.parts = s.parts ∨
        ∃ st, s2.parts = closePart ft fn s.parts st) ∧
    (∀ ps c, encodeIter E ft fn fileBytes bitsCount s = .done ps c →
      ∃ st, ps = closePart ft fn s.parts st) := by
  unfold encodeIter
  by_cases h100 : 100 ≤ s.movesInGame
  · rw [if_pos h100]
    constructor
    · intro s2 h
      cases h
      exact Or.inr ⟨s.stack, rfl⟩
    · intro ps c h
      cases h
  · rw [if_neg h100]
    by_cases hz : (E.legalMoves s.pos).length = 0
    · rw [if_pos hz]
      constructor
      · intro s2 h
        cases h
      · intro ps c h
        cases h
    · rw [if_neg hz]
      rcases hfm : findMatch (buildMoveBits (E.legalMoves s.pos)
          (min (log2 (E.legalMoves s.pos).length)
            (bitsCount - s.bitIndex)))
          (nextChunk fileBytes s.bitIndex
            (min (log2 (E.legalMoves s.pos).length)
              (bitsCount - s.bitIndex))) with _ | m <;>
        simp only [hfm] <;>
        rcases heof : decide (bitsCount ≤ s.bitIndex +
            min (log2 (E.legalMoves s.pos).length)
              (bitsCount - s.bitIndex)) with _ | _ <;>
        simp only [Bool.or_false, Bool.or_true] <;>
        constructor
      all_goals intro a b
      all_goals try intro hh
      all_goals simp only [Bool.false_eq_true, if_false, if_true,
        Bool.true_eq_false, reduceIte] at *
      all_goals try cases b
      all_goals try cases hh
      all_goals try
        (rcases hcb : (decide ((E.legalMoves s.pos).length ≤ 1) ||
            E.insufficientMaterial s.pos || E.canClaimDraw s.pos)
            with _ | _ <;> simp only [hcb] at * <;>
          simp only [Bool.false_eq_true, Bool.true_eq_false, if_false,
            if_true, reduceIte] at *)
      all_goals try cases b
      all_goals try cases hh
      all_goals try exact Or.inl rfl
      all_goals try exact Or.inr ⟨_, rfl⟩
      all_goals try exact ⟨_, rfl⟩
      all_goals try
        (rcases hcb : (decide ((E.legalMoves (E.push s.pos m)).length ≤ 1) ||
            E.insufficientMaterial (E.push s.pos m) ||
            E.canClaimDraw (E.push s.pos m))
            with _ | _ <;> simp only [hcb] at * <;>
          simp only [Bool.false_eq_true, Bool.true_eq_false, if_false,
            if_true, reduceIte] at *)
      all_goals try cases b
      all_goals try cases hh
      all_goals try exact Or.inl rfl
      all_goals try exact Or.inr ⟨_, rfl⟩
      all_goals try exact ⟨_, rfl⟩
      all_goals try exact Or.inl trivial
      all_goals (injection hh with h1 h2; exact ⟨_, h1.symm⟩)

theorem encodeLoop_numbered (E : Engine Pos) (ft fn : String)
    (fileBytes : List Nat) (bitsCount : Nat) :
    ∀ (fuel : Nat) (s : EncState Pos), PartsNumbered s.parts →
      ∀ parts clamped,
        encodeLoop E ft fn fileBytes bitsCount fuel s =
          some (.ok (parts, clamped)) →
        PartsNumbered parts := by
  intro fuel
  induction fuel with
  | zero =>
    intro s _ parts clamped h
    simp [encodeLoop] at h
  | succ fuel ih =>
    intro s hnum parts clamped h
    rw [encodeLoop] at h
    rcases hit : encodeIter E ft fn fileBytes bitsCount s with
      s2 | ⟨ps, c⟩ | e
    · rw [hit] at h
      obtain ⟨hnext, _⟩ :=
        encodeIter_parts_shape E ft fn fileBytes bitsCount s
      rcases hnext s2 hit with hsame | ⟨st, hclose⟩
      · exact ih s2 (hsame ▸ hnum) parts clamped h
      · refine ih s2 ?_ parts clamped h
        rw [hclose]
        exact partsNumbered_close ft fn s.parts st hnum
    · rw [hit] at h
      obtain ⟨_, hdone⟩ :=
        encodeIter_parts_shape E ft fn fileBytes bitsCount s
      obtain ⟨st, hps⟩ := hdone ps c hit
      have h3 : some (Except.ok (ps, c)) =
          (some (Except.ok (parts, clamped)) :
            Option (Except EncodeError (List Part × Bool))) := h
      simp at h3
      rw [← h3.1, hps]
      exact partsNumbered_close ft fn s.parts st hnum
    · rw [hit] at h
      have h3 : some (Except.error e) =
          (some (Except.ok (parts, clamped)) :
            Option (Except EncodeError (List Part × Bool))) := h
      simp at h3

/-- A non-splitting iteration closes a part exactly when the post-push
close test fires. -/
theorem iterParts_pushResult (E : Engine Pos) (ft fn : String)
    (bitsCount : Nat) (s : EncState Pos) (m : String) (w : Nat)
    (old : List Part) :
    iterParts (pushResult E ft fn bitsCount s m w) old =
      if (decide ((E.legalMoves (E.push s.pos m)).length ≤ 1)
          || E.insufficientMaterial (E.push s.pos m)
          || E.canClaimDraw (E.push s.pos m)
          || decide (bitsCount ≤ s.bitIndex + w)) = true
      then closePart ft fn s.parts (s.stack ++ [m]) else s.parts := by
  simp only [pushResult, iterParts]
  rcases hcb : (decide ((E.legalMoves (E.push s.pos m)).length ≤ 1)
      || E.insufficientMaterial (E.push s.pos m)
      || E.canClaimDraw (E.push s.pos m)
      || decide (bitsCount ≤ s.bitIndex + w)) with _ | _
  · have heof : decide (bitsCount ≤ s.bitIndex + w) = false := by
      rcases hd : decide (bitsCount ≤ s.bitIndex + w) with _ | _
      · rfl
      · rw [hd] at hcb
        simp at hcb
    rw [heof]
    simp
  · rcases heof : decide (bitsCount ≤ s.bitIndex + w) with _ | _ <;>
      simp

theorem closePart_ne (ft fn : String) (parts : List Part)
    (stack : List String) : closePart ft fn parts stack ≠ parts := by
  intro h
  have := congrArg List.length h
  simp [closePart] at this

/-- C5: during every encode pass a part is closed (emitted) exactly when
the running game has reached `MAX_MOVES_PER_GAME = 100` moves at the top
of the loop, or the position reached by the move just pushed has at most
one legal move, insufficient material or a claimable draw, or end of
input is reached; and the emitted parts carry `PartNumber` headers
`1, 2, 3, …` in creation order. -/
theorem C5_part_close (Pos : Type) (E : Engine Pos) (hE : GoodEngine E)
    (ft fn : String) (fileBytes : List Nat) (hbytes : BytesOk fileBytes) :
    (∀ fuel res, encode E ft fn fileBytes fuel = some (.ok res) →
      res.parts.map (fun p => p.partNumber) =
        List.range' 1 res.parts.length) ∧
    (∀ s : EncState Pos, s.bitIndex < fileBytes.length * 8 →
      2 ≤ (E.legalMoves s.pos).length →
      (iterParts (encodeIter E ft fn fileBytes (fileBytes.length * 8) s)
          s.parts ≠ s.parts ↔
        100 ≤ s.movesInGame ∨
        ∃ m, findMatch (buildMoveBits (E.legalMoves s.pos)
              (stepWidth E (fileBytes.length * 8) s))
            (nextChunk fileBytes s.bitIndex
              (stepWidth E (fileBytes.length * 8) s)) = some m ∧
          ((E.legalMoves (E.push s.pos m)).length ≤ 1 ∨
            E.insufficientMaterial (E.push s.pos m) = true ∨
            E.canClaimDraw (E.push s.pos m) = true ∨
            fileBytes.length * 8 ≤
              s.bitIndex + stepWidth E (fileBytes.length * 8) s))) := by
  constructor
  · intro fuel res hres
    unfold encode at hres
    by_cases hempty : fileBytes.length = 0
    · rw [if_pos hempty] at hres
      have h3 : some (Except.error EncodeError.invalidInput) =
          (some (Except.ok res) :
            Option (Except EncodeError EncodeResult)) := hres
      simp at h3
    · rw [if_neg hempty] at hres
      rcases hloop : encodeLoop E ft fn fileBytes (fileBytes.length * 8)
          fuel (initState E) with _ | r2
      · rw [hloop] at hres
        have h3 : (none : Option (Except EncodeError EncodeResult)) =
            some (Except.ok res) := hres
        simp at h3
      · rw [hloop] at hres
        rcases r2 with e | ⟨parts, clamped⟩
        · have h3 : some (Except.error e) =
              (some (Except.ok res) :
                Option (Except EncodeError EncodeResult)) := hres
          simp at h3
        · have hnum := encodeLoop_numbered E ft fn fileBytes
            (fileBytes.length * 8) fuel (initState E)
            (by simp [initState, PartsNumbered]) parts clamped hloop
          have h3 : some (Except.ok
              (⟨parts, fn, parts.length,
                parts.map (fun p => p.moves.length), clamped⟩ :
                EncodeResult)) = some (Except.ok res) := hres
          simp only [Option.some.injEq, Except.ok.injEq] at h3
          rw [← h3]
          exact hnum
  · intro s hidx hn
    by_cases h100 : 100 ≤ s.movesInGame
    · have hiter : encodeIter E ft fn fileBytes (fileBytes.length * 8) s =
          .next ⟨E.start, [], 0, s.bitIndex,
            closePart ft fn s.parts s.stack, s.clamped⟩ := by
        simp only [encodeIter]
        rw [if_pos h100]
      rw [hiter]
      exact iff_of_true (closePart_ne ft fn s.parts s.stack)
        (Or.inl h100)
    · obtain ⟨hclen, hchunk, hcnt, hi, hfind, hiter⟩ :=
        encodeIter_push E hE ft fn fileBytes hbytes s hidx hn h100
      rw [hiter, hchunk, hfind,
        iterParts_pushResult E ft fn (fileBytes.length * 8) s _ _ s.parts]
      rcases hcb : (decide ((E.legalMoves (E.push s.pos
          ((E.legalMoves s.pos).get
            ⟨stepIndex E fileBytes (fileBytes.length * 8) s, hi⟩))).length
            ≤ 1)
          || E.insufficientMaterial (E.push s.pos
            ((E.legalMoves s.pos).get
              ⟨stepIndex E fileBytes (fileBytes.length * 8) s, hi⟩))
          || E.canClaimDraw (E.push s.pos
            ((E.legalMoves s.pos).get
              ⟨stepIndex E fileBytes (fileBytes.length * 8) s, hi⟩))
          || decide (fileBytes.length * 8 ≤
            s.bitIndex + stepWidth E (fileBytes.length * 8) s))
          with _ | _
      · rw [if_neg Bool.false_ne_true]
        simp only [Bool.or_eq_false_iff, decide_eq_false_iff_not] at hcb
        constructor
        · intro hne
          exact absurd rfl hne
        · rintro (h100x | ⟨m, hm, hcond⟩)
          · exact absurd h100x h100
          · exfalso
            have hmeq : m = (E.legalMoves s.pos).get
                ⟨stepIndex E fileBytes (fileBytes.length * 8) s, hi⟩ := by
              have := hm.symm
              simpa using this
            subst hmeq
            obtain ⟨⟨⟨hc1, hc2⟩, hc3⟩, hc4⟩ := hcb
            rcases hcond with hx | hx | hx | hx
            · exact hc1 hx
            · rw [hx] at hc2
              simp at hc2
            · rw [hx] at hc3
              simp at hc3
            · exact hc4 hx
      · rw [if_pos rfl]
        simp only [Bool.or_eq_true, decide_eq_true_eq] at hcb
        constructor
        · intro _
          refine Or.inr ⟨_, rfl, ?_⟩
          rcases hcb with (((hx | hx) | hx) | hx)
          · exact Or.inl hx
          · exact Or.inr (Or.inl hx)
          · exact Or.inr (Or.inr (Or.inl hx))
          · exact Or.inr (Or.inr (Or.inr hx))
        · intro _
          exact closePart_ne ft fn s.parts _

/-- C9: at every encoder step that is not a 100-move part close, the
extracted file window has exactly `stepWidth` bits (the two-byte pool
always covers the slice), exactly one entry of the truncated move map
matches it — the map contains every width-bit string since
`2 ^ stepWidth ≤ |legal moves|` — and the iteration pushes exactly that
one matching move and advances the bit cursor by the step width: the
cursor never moves past bits that produced no move. -/
theorem C9_step_exact (Pos : Type) (E : Engine Pos) (hE : GoodEngine E)
    (ft fn : String) (fileBytes : List Nat) (hbytes : BytesOk fileBytes)
    (s : EncState Pos) (hidx : s.bitIndex < fileBytes.length * 8)
    (hn : 2 ≤ (E.legalMoves s.pos).length)
    (h100 : ¬ 100 ≤ s.movesInGame) :
    (nextChunk fileBytes s.bitIndex
      (stepWidth E (fileBytes.length * 8) s)).length =
        stepWidth E (fileBytes.length * 8) s ∧
    (buildMoveBits (E.legalMoves s.pos)
        (stepWidth E (fileBytes.length * 8) s)).countP
      (fun e => e.2 == nextChunk fileBytes s.bitIndex
        (stepWidth E (fileBytes.length * 8) s)) = 1 ∧
    ∃ m, findMatch (buildMoveBits (E.legalMoves s.pos)
          (stepWidth E (fileBytes.length * 8) s))
        (nextChunk fileBytes s.bitIndex
          (stepWidth E (fileBytes.length * 8) s)) = some m ∧
      m ∈ E.legalMoves s.pos ∧
      encodeIter E ft fn fileBytes (fileBytes.length * 8) s =
        pushResult E ft fn (fileBytes.length * 8) s m
          (stepWidth E (fileBytes.length * 8) s) := by
  obtain ⟨hclen, hchunk, hcnt, hi, hfind, hiter⟩ :=
    encodeIter_push E hE ft fn fileBytes hbytes s hidx hn h100
  rw [hchunk]
  exact ⟨hclen, hcnt, _, hfind, List.get_mem _ _ _, hiter⟩

theorem toyEngine_good : GoodEngine toyEngine := by
  refine ⟨?_, ?_, ?_⟩
  · intro p
    show (["a", "b", "c", "d"] : List String).Nodup
    decide
  · decide
  · intro p
    show (["a", "b", "c", "d"] : List String).length < 256
    decide

theorem bytesOk_65 : BytesOk [65] := by
  intro b hb
  simp at hb
  omega

/-- Witness for C9 at the miniature engine and a one-byte file. -/
theorem C9_step_exact_witness :
    GoodEngine toyEngine ∧ BytesOk [65] ∧
    ∃ m, findMatch (buildMoveBits
          (toyEngine.legalMoves (initState toyEngine).pos)
          (stepWidth toyEngine (([65] : List Nat).length * 8)
            (initState toyEngine)))
        (nextChunk [65] (initState toyEngine).bitIndex
          (stepWidth toyEngine (([65] : List Nat).length * 8)
            (initState toyEngine))) = some m ∧
      m ∈ toyEngine.legalMoves (initState toyEngine).pos ∧
      encodeIter toyEngine "t" "f" [65] (([65] : List Nat).length * 8)
          (initState toyEngine) =
        pushResult toyEngine "t" "f" (([65] : List Nat).length * 8)
          (initState toyEngine) m
          (stepWidth toyEngine (([65] : List Nat).length * 8)
            (initState toyEngine)) :=
  ⟨toyEngine_good, bytesOk_65,
    (C9_step_exact (List String) toyEngine toyEngine_good "t" "f" [65]
      bytesOk_65 (initState toyEngine) (by decide) (by decide)
      (by decide)).2.2⟩

/-- Witness for C10: a concrete one-byte encode run terminates. -/
theorem C10_encode_terminates_witness :
    ([65] : List Nat) ≠ [] ∧ BytesOk [65] ∧
    ∃ r, encode toyEngine "t" "f" [65]
        (2 * (([65] : List Nat).length * 8) + 1) = some (.ok r) :=
  ⟨by decide, bytesOk_65,
    C10_encode_terminates (List String) toyEngine toyEngine_good "t" "f"
      [65] (by decide) bytesOk_65⟩

/-- Witness for C6 at a concrete move list and width. -/
theorem C6_moveBits_map_witness :
    (2 : Nat) ≤ 5 ∧ (1 : Nat) ≤ 3 ∧
    (buildMoveBits ["a", "b", "c"] (min (log2 5) 3) =
      (["a", "b", "c"].take (2 ^ min (log2 5) 3)).zip
        (((List.range (min (2 ^ min (log2 5) 3)
            (["a", "b", "c"] : List String).length)).map
          (fun k => to_binary_string k (min (log2 5) 3)))) ∧
    ((buildMoveBits ["a", "b", "c"] (min (log2 5) 3)).map
      (fun e => e.2)).Nodup) :=
  ⟨by decide, by decide,
    C6_moveBits_map ["a", "b", "c"] 5 3 (by decide) (by decide)⟩

/-- Witness for C5: part numbering evaluated on a concrete encode run. -/
theorem C5_part_close_witness :
    GoodEngine toyEngine ∧ BytesOk [65] ∧
    (⟨[⟨"t", "f", 1, ["b", "a", "a", "b"]⟩], "f", 1, [4],
        false⟩ : EncodeResult).parts.map (fun p => p.partNumber) =
      List.range' 1 (⟨[⟨"t", "f", 1, ["b", "a", "a", "b"]⟩], "f", 1, [4],
        false⟩ : EncodeResult).parts.length :=
  ⟨toyEngine_good, bytesOk_65,
    (C5_part_close (List String) toyEngine toyEngine_good "t" "f" [65]
      bytesOk_65).1 100 _ rfl⟩

/-!
## The decode run as a pure bit stream

`decode` drains complete bytes incrementally; these lemmas relate the
stateful run to the concatenated bit string `decodeBits` and to
`bytesOfBits`.
-/

theorem to_binary_string_roundtrip (c : List Bool) (hc : c.length = 8) :
    to_binary_string (bitsToNat c) 8 = c := by
  rw [to_binary_string_eq_bitsFixed _ _ (by omega) (hc ▸ bitsToNat_lt c),
    ← hc, bitsFixed_bitsToNat]

theorem drainBytes_stream : ∀ (n : Nat) (acc : List Bool) (out : List Nat),
    acc.length ≤ n →
    bitsOfBytes (drainBytes acc out).2 ++ (drainBytes acc out).1 =
      bitsOfBytes out ++ acc ∧
    (drainBytes acc out).1.length < 8 ∧
    (drainBytes acc out).2 = out ++ bytesOfBits acc := by
  intro n
  induction n with
  | zero =>
    intro acc out h
    have hlt : ¬ (8 ≤ acc.length) := by omega
    rw [drainBytes_eq, if_neg hlt, bytesOfBits_eq, if_neg hlt]
    simp
    omega
  | succ n ih =>
    intro acc out h
    by_cases hge : 8 ≤ acc.length
    · have htl : (List.take 8 acc).length = 8 := by
        rw [List.length_take]
        omega
      rw [drainBytes_eq, if_pos hge, bytesOfBits_eq, if_pos hge]
      obtain ⟨h1, h2, h3⟩ := ih (acc.drop 8)
        (out ++ [bitsToNat (acc.take 8)]) (by simp; omega)
      refine ⟨?_, h2, ?_⟩
      · rw [h1]
        have hb : bitsOfBytes (out ++ [bitsToNat (acc.take 8)]) =
            bitsOfBytes out ++ acc.take 8 := by
          unfold bitsOfBytes
          simp [to_binary_string_roundtrip _ htl]
        rw [hb, List.append_assoc, List.take_append_drop]
      · rw [h3, List.append_assoc]
        rfl
    · rw [drainBytes_eq, if_neg hge, bytesOfBits_eq, if_neg hge]
      simp
      omega

/-- Draining is compatible with appending further bits on the right. -/
theorem drainBytes_assoc : ∀ (n : Nat) (acc c : List Bool) (out : List Nat),
    acc.length ≤ n →
    drainBytes (acc ++ c) out =
      drainBytes ((drainBytes acc out).1 ++ c) (drainBytes acc out).2 := by
  intro n
  induction n with
  | zero =>
    intro acc c out h
    have h0 : acc.length = 0 := by omega
    rw [List.eq_nil_of_length_eq_zero h0]
    rw [show drainBytes [] out = ([], out) from rfl]
  | succ n ih =>
    intro acc c out h
    by_cases hge : 8 ≤ acc.length
    · have hstep : drainBytes acc out =
          drainBytes (acc.drop 8) (out ++ [bitsToNat (acc.take 8)]) := by
        rw [drainBytes_eq, if_pos hge]
      have happ : drainBytes (acc ++ c) out =
          drainBytes (acc.drop 8 ++ c)
            (out ++ [bitsToNat (acc.take 8)]) := by
        rw [drainBytes_eq, if_pos (by simp; omega),
          List.take_append_of_le_length hge,
          List.drop_append_of_le_length hge]
      rw [happ, hstep]
      exact ih (acc.drop 8) c _ (by simp; omega)
    · have hstop : drainBytes acc out = (acc, out) := by
        rw [drainBytes_eq, if_neg hge]
      rw [hstop]

theorem bytesOfBits_length : ∀ (n : Nat) (l : List Bool), l.length ≤ n →
    (bytesOfBits l).length = l.length / 8 := by
  intro n
  induction n with
  | zero =>
    intro l h
    have hlt : ¬ (8 ≤ l.length) := by omega
    rw [bytesOfBits_eq, if_neg hlt]
    simp
    omega
  | succ n ih =>
    intro l h
    by_cases hge : 8 ≤ l.length
    · rw [bytesOfBits_eq, if_pos hge]
      rw [List.length_cons, ih (l.drop 8) (by simp; omega),
        List.length_drop]
      omega
    · rw [bytesOfBits_eq, if_neg hge]
      simp
      omega

theorem decodeGame_eq_bits (E : Engine Pos) (ms : List String) :
    ∀ (p : Pos) (acc : List Bool) (out : List Nat), acc.length < 8 →
      (decodeBitsGame E p ms = none →
        ∃ e, decodeGame E p ms acc out = .error e) ∧
      (∀ bs, decodeBitsGame E p ms = some bs →
        decodeGame E p ms acc out = .ok (drainBytes (acc ++ bs) out)) := by
  induction ms with
  | nil =>
    intro p acc out hacc
    constructor
    · intro h
      simp [decodeBitsGame] at h
    · intro bs h
      simp only [decodeBitsGame, Option.some.injEq] at h
      subst h
      simp only [decodeGame]
      rw [List.append_nil, drainBytes_eq, if_neg (by omega)]
  | cons m rest ih =>
    intro p acc out hacc
    simp only [decodeGame, decodeBitsGame]
    rcases hfind : (E.legalMoves p).findIdx? (fun u => u == m) with _ | i
    · simp only [hfind]
      refine ⟨fun _ => ⟨_, rfl⟩, fun bs h => ?_⟩
      simp at h
    · simp only [hfind]
      have hlen : (drainBytes
          (acc ++ to_binary_string i (log2 (E.legalMoves p).length))
          out).1.length < 8 :=
        (drainBytes_stream (acc ++ to_binary_string i
          (log2 (E.legalMoves p).length)).length _ _ (le_refl _)).2.1
      obtain ⟨ihn, ihs⟩ := ih (E.push p m)
        (drainBytes (acc ++ to_binary_string i
          (log2 (E.legalMoves p).length)) out).1
        (drainBytes (acc ++ to_binary_string i
          (log2 (E.legalMoves p).length)) out).2 hlen
      constructor
      · intro h
        rcases hrec : decodeBitsGame E (E.push p m) rest with _ | bs
        · exact ihn hrec
        · rw [hrec] at h
          simp at h
      · intro bs h
        rcases hrec : decodeBitsGame E (E.push p m) rest with _ | bs2
        · rw [hrec] at h
          simp at h
        · rw [hrec] at h
          simp only [Option.map_some', Option.some.injEq] at h
          subst h
          rw [ihs bs2 hrec, ← List.append_assoc,
            drainBytes_assoc (acc ++ to_binary_string i
              (log2 (E.legalMoves p).length)).length
              (acc ++ to_binary_string i (log2 (E.legalMoves p).length))
              bs2 out (le_refl _)]

theorem decodeAll_eq_bits (E : Engine Pos) (gs : List (List String)) :
    ∀ (acc : List Bool) (out : List Nat), acc.length < 8 →
      (decodeBits E gs = none → ∃ e, decodeAll E gs acc out = .error e) ∧
      (∀ bs, decodeBits E gs = some bs →
        decodeAll E gs acc out = .ok (drainBytes (acc ++ bs) out).2) := by
  induction gs with
  | nil =>
    intro acc out hacc
    constructor
    · intro h
      simp [decodeBits] at h
    · intro bs h
      simp only [decodeBits, Option.some.injEq] at h
      subst h
      simp only [decodeAll]
      rw [List.append_nil, drainBytes_eq, if_neg (by omega)]
  | cons g gs ih =>
    intro acc out hacc
    simp only [decodeAll, decodeBits]
    obtain ⟨gn, gsome⟩ := decodeGame_eq_bits E g E.start acc out hacc
    rcases hg : decodeBitsGame E E.start g with _ | b1
    · obtain ⟨e, he⟩ := gn hg
      rw [he]
      refine ⟨fun _ => ⟨e, rfl⟩, fun bs h => ?_⟩
      simp at h
    · rcases hdb : drainBytes (acc ++ b1) out with ⟨a2, o2⟩
      have hlen : a2.length < 8 := by
        have := (drainBytes_stream (acc ++ b1).length (acc ++ b1) out
          (le_refl _)).2.1
        rwa [hdb] at this
      have hred : (match decodeGame E E.start g acc out with
          | .error e => (.error e :
              Except DecodeError (List Nat))
          | .ok (acc2, out2) => decodeAll E gs acc2 out2) =
          decodeAll E gs a2 o2 := by
        rw [gsome b1 hg, hdb]
      rw [hred]
      obtain ⟨ihn, ihs⟩ := ih a2 o2 hlen
      rcases hrest : decodeBits E gs with _ | b2
      · refine ⟨fun _ => ihn hrest, fun bs h => ?_⟩
        simp at h
      · constructor
        · intro h
          simp at h
        · intro bs h
          simp only [Option.some.injEq] at h
          subst h
          rw [ihs b2 hrest, ← List.append_assoc,
            drainBytes_assoc (acc ++ b1).length (acc ++ b1) b2 out
              (le_refl _), hdb]

theorem bytesOfBits_bitsOfBytes (bs : List Nat) (h : BytesOk bs) :
    bytesOfBits (bitsOfBytes bs) = bs := by
  induction bs with
  | nil => rfl
  | cons b rest ih =>
    obtain ⟨hb, hrest⟩ := bytesOk_cons b rest h
    have hlen := to_binary_string_byte_length b hb
    rw [bitsOfBytes_cons, bytesOfBits_eq,
      if_pos (by rw [List.length_append, hlen]; omega),
      List.take_append_of_le_length (by omega),
      List.drop_append_of_le_length (by omega),
      List.take_of_length_le (by omega),
      List.drop_of_length_le (by omega), List.nil_append,
      bitsToNat_to_binary_string, ih hrest]

/-- C7 (amended): a successful decode emits only complete bytes: its
output is the byte grouping of the concatenated per-move bit strings (the
string appended for a move is `bin(i).zfill(width)`, which is longer than
`width` when the move's ordinal index needs more than `width` bits), and
its length in bytes is the floor of the total appended bit count over 8.
The original claim's formula — with per-move `width = ⌊log₂ |legal|⌋`
itself — fails on inputs containing moves of ordinal index `≥ 2^width`;
see the counterexample. -/
theorem C7_decode_bytes (Pos : Type) (E : Engine Pos)
    (gs : List (List String)) (bs : List Bool)
    (h : decodeBits E gs = some bs) :
    decode E gs = .ok (bytesOfBits bs) ∧
    (bytesOfBits bs).length = bs.length / 8 := by
  have hmain := (decodeAll_eq_bits E gs [] [] (by simp)).2 bs h
  constructor
  · unfold decode
    rw [hmain]
    obtain ⟨_, _, h3⟩ := drainBytes_stream (([] : List Bool) ++ bs).length
      (([] : List Bool) ++ bs) [] (le_refl _)
    rw [h3]
    simp
  · exact bytesOfBits_length bs.length bs (le_refl _)

/-- Witness for C7's amended statement on a concrete decode input. -/
theorem C7_decode_bytes_witness :
    decodeBits toyEngine [["a", "b", "c", "d", "a"]] =
      some [false, false, false, true, true, false, true, true,
        false, false] ∧
    decode toyEngine [["a", "b", "c", "d", "a"]] =
      .ok (bytesOfBits [false, false, false, true, true, false, true,
        true, false, false]) ∧
    (bytesOfBits [false, false, false, true, true, false, true, true,
      false, false]).length =
      ([false, false, false, true, true, false, true, true, false,
        false] : List Bool).length / 8 :=
  ⟨rfl, C7_decode_bytes (List String) toyEngine [["a", "b", "c", "d", "a"]]
    [false, false, false, true, true, false, true, true, false, false]
    rfl⟩

/-!
## Claim C1: the round trip

The encoder is simulated by the bit-level view of the decoder: at every
loop state the bits recoverable from the emitted parts plus the running
game equal the file bits consumed so far, provided no step's width was
clamped.
-/

theorem replay_append (E : Engine Pos) (p : Pos) (ms : List String)
    (m : String) : replay E p (ms ++ [m]) = E.push (replay E p ms) m := by
  unfold replay
  rw [List.foldl_append]
  rfl

theorem findIdx?_get_of_nodup (l : List String) (hnd : l.Nodup)
    (i : Nat) (h : i < l.length) :
    l.findIdx? (fun u => u == l.get ⟨i, h⟩) = some i := by
  rw [List.findIdx?_eq_some_iff_getElem]
  refine ⟨h, by simp, ?_⟩
  intro j hji
  have hj : j < l.length := Nat.lt_trans hji h
  simp only [beq_iff_eq]
  intro heq
  have h2 : l.get ⟨j, hj⟩ = l.get ⟨i, h⟩ := by
    rw [List.get_eq_getElem, List.get_eq_getElem]
    exact heq
  have h3 := (List.Nodup.get_inj_iff hnd).1 h2
  have h4 : j = i := congrArg Fin.val h3
  omega

theorem decodeBitsGame_append (E : Engine Pos) (ms : List String)
    (m : String) : ∀ p,
    decodeBitsGame E p (ms ++ [m]) =
      match decodeBitsGame E p ms,
        (E.legalMoves (replay E p ms)).findIdx? (fun u => u == m) with
      | some bs, some i => some (bs ++ to_binary_string i
          (log2 (E.legalMoves (replay E p ms)).length))
      | _, _ => none := by
  induction ms with
  | nil =>
    intro p
    simp only [List.nil_append, decodeBitsGame, replay_nil]
    rcases hf : (E.legalMoves p).findIdx? (fun u => u == m) with _ | i
    · rfl
    · simp [decodeBitsGame]
  | cons m0 rest ih =>
    intro p
    simp only [List.cons_append, decodeBitsGame, replay_cons]
    rcases hf : (E.legalMoves p).findIdx? (fun u => u == m0) with _ | i
    · rfl
    · simp only [List.append_eq]
      rw [ih (E.push p m0)]
      rcases decodeBitsGame E (E.push p m0) rest with _ | bs <;>
        rcases (E.legalMoves
          (replay E (E.push p m0) rest)).findIdx? (fun u => u == m)
          with _ | j <;>
        simp

theorem decodeBits_append_game (E : Engine Pos) (gs : List (List String))
    (g : List String) :
    decodeBits E (gs ++ [g]) =
      match decodeBits E gs, decodeBitsGame E E.start g with
      | some a, some b => some (a ++ b)
      | _, _ => none := by
  induction gs with
  | nil =>
    simp only [List.nil_append, decodeBits]
    rcases decodeBitsGame E E.start g with _ | b <;> simp [decodeBits]
  | cons g0 gs ih =>
    simp only [List.cons_append, decodeBits, List.append_eq]
    rw [ih]
    rcases decodeBitsGame E E.start g0 with _ | b0 <;>
      rcases decodeBits E gs with _ | bs <;>
      rcases decodeBitsGame E E.start g with _ | b <;> simp

theorem encodeIter_clamped (E : Engine Pos) (ft fn : String)
    (fileBytes : List Nat) (bitsCount : Nat) (s : EncState Pos)
    (hc : s.clamped = true) :
    (∀ s2, encodeIter E ft fn fileBytes bitsCount s = .next s2 →
      s2.clamped = true) ∧
    (∀ ps c, encodeIter E ft fn fileBytes bitsCount s = .done ps c →
      c = true) := by
  unfold encodeIter
  rw [hc]
  by_cases h100 : 100 ≤ s.movesInGame
  · rw [if_pos h100]
    constructor
    · intro s2 hh
      cases hh
      rfl
    · intro ps c hh
      cases hh
  · rw [if_neg h100]
    by_cases hz : (E.legalMoves s.pos).length = 0
    · rw [if_pos hz]
      constructor
      · intro s2 hh
        cases hh
      · intro ps c hh
        cases hh
    · rw [if_neg hz]
      simp only [Bool.true_or]
      rcases hfm : findMatch (buildMoveBits (E.legalMoves s.pos)
          (min (log2 (E.legalMoves s.pos).length)
            (bitsCount - s.bitIndex)))
          (nextChunk fileBytes s.bitIndex
            (min (log2 (E.legalMoves s.pos).length)
              (bitsCount - s.bitIndex))) with _ | m <;>
        simp only [hfm] <;>
        rcases heof : decide (bitsCount ≤ s.bitIndex +
            min (log2 (E.legalMoves s.pos).length)
              (bitsCount - s.bitIndex)) with _ | _ <;>
        simp only [Bool.or_false, Bool.or_true] <;>
        constructor <;>
        intro a b <;>
        try intro hh
      all_goals simp only [Bool.false_eq_true, Bool.true_eq_false,
        if_false, if_true, reduceIte] at *
      all_goals try cases b
      all_goals try cases hh
      all_goals try rfl
      all_goals try
        (rcases hcb : (decide ((E.legalMoves s.pos).length ≤ 1) ||
            E.insufficientMaterial s.pos || E.canClaimDraw s.pos)
            with _ | _ <;> simp only [hcb] at * <;>
          simp only [Bool.false_eq_true, Bool.true_eq_false, if_false,
            if_true, reduceIte] at *)
      all_goals try cases b
      all_goals try cases hh
      all_goals try rfl
      all_goals try
        (rcases hcb : (decide ((E.legalMoves (E.push s.pos m)).length ≤ 1) ||
            E.insufficientMaterial (E.push s.pos m) ||
            E.canClaimDraw (E.push s.pos m))
            with _ | _ <;> simp only [hcb] at * <;>
          simp only [Bool.false_eq_true, Bool.true_eq_false, if_false,
            if_true, reduceIte] at *)
      all_goals try cases b
      all_goals try cases hh
      all_goals try rfl
      all_goals (injection hh with h1 h2; exact h2.symm)

theorem encodeLoop_clamped_mono (E : Engine Pos) (ft fn : String)
    (fileBytes : List Nat) (bitsCount : Nat) :
    ∀ (fuel : Nat) (s : EncState Pos) (parts : List Part) (c : Bool),
      s.clamped = true →
      encodeLoop E ft fn fileBytes bitsCount fuel s =
        some (.ok (parts, c)) →
      c = true := by
  intro fuel
  induction fuel with
  | zero =>
    intro s parts c _ h
    simp [encodeLoop] at h
  | succ fuel ih =>
    intro s parts c hc h
    rw [encodeLoop] at h
    rcases hit : encodeIter E ft fn fileBytes bitsCount s with
      s2 | ⟨ps, c2⟩ | e <;> rw [hit] at h
    · exact ih s2 parts c
        ((encodeIter_clamped E ft fn fileBytes bitsCount s hc).1 s2 hit) h
    · have h3 : some (Except.ok (ps, c2)) =
          (some (Except.ok (parts, c)) :
            Option (Except EncodeError (List Part × Bool))) := h
      simp at h3
      rw [← h3.2]
      exact (encodeIter_clamped E ft fn fileBytes bitsCount s hc).2
        ps c2 hit
    · have h3 : some (Except.error e) =
          (some (Except.ok (parts, c)) :
            Option (Except EncodeError (List Part × Bool))) := h
      simp at h3

/-- The encoder simulation: from any state whose recoverable bits are the
file bits consumed so far, a non-clamped loop run produces parts whose
bit-level decode is exactly the file's bit stream. -/
theorem encodeLoop_bits (E : Engine Pos) (hE : GoodEngine E)
    (ft fn : String) (fileBytes : List Nat) (hbytes : BytesOk fileBytes) :
    ∀ (fuel : Nat) (s : EncState Pos),
      EncInv E (fileBytes.length * 8) s →
      SInv E fileBytes s →
      s.clamped = false →
      ∀ parts,
        encodeLoop E ft fn fileBytes (fileBytes.length * 8) fuel s =
          some (.ok (parts, false)) →
        decodeBits E (parts.map (fun p => p.moves)) =
          some (bitsOfBytes fileBytes) := by
  intro fuel
  induction fuel with
  | zero =>
    intro s _ _ _ parts h
    simp [encodeLoop] at h
  | succ fuel ih =>
    intro s hInv hS hcl parts h
    obtain ⟨hidx, hn⟩ := hInv
    obtain ⟨hreplay, b1, b2, hb1, hb2, hcat⟩ := hS
    rw [encodeLoop] at h
    by_cases h100 : 100 ≤ s.movesInGame
    · have hstep : encodeIter E ft fn fileBytes (fileBytes.length * 8) s =
          .next ⟨E.start, [], 0, s.bitIndex,
            closePart ft fn s.parts s.stack, s.clamped⟩ := by
        simp only [encodeIter]
        rw [if_pos h100]
      rw [hstep] at h
      have h2 : encodeLoop E ft fn fileBytes (fileBytes.length * 8) fuel
          ⟨E.start, [], 0, s.bitIndex,
            closePart ft fn s.parts s.stack, s.clamped⟩ =
          some (.ok (parts, false)) := h
      refine ih ⟨E.start, [], 0, s.bitIndex,
          closePart ft fn s.parts s.stack, s.clamped⟩
        ⟨hidx, hE.startMoves⟩ ⟨rfl, b1 ++ b2, [], ?_, rfl, ?_⟩
        hcl parts h2
      · show decodeBits E ((closePart ft fn s.parts s.stack).map
          (fun p => p.moves)) = some (b1 ++ b2)
        have hmap : (closePart ft fn s.parts s.stack).map
            (fun p => p.moves) =
            s.parts.map (fun p => p.moves) ++ [s.stack] := by
          simp [closePart]
        rw [hmap, decodeBits_append_game, hb1, hb2]
      · show b1 ++ b2 ++ [] = (bitsOfBytes fileBytes).take s.bitIndex
        simp [hcat]
    · obtain ⟨hclen, hchunk, hcnt, hi, hfind, hiter⟩ :=
        encodeIter_push E hE ft fn fileBytes hbytes s hidx hn h100
      have hw1 : 1 ≤ stepWidth E (fileBytes.length * 8) s :=
        stepWidth_pos E _ s hidx hn
      have hwrem : stepWidth E (fileBytes.length * 8) s ≤
          fileBytes.length * 8 - s.bitIndex := Nat.min_le_right _ _
      have hclt : stepIndex E fileBytes (fileBytes.length * 8) s <
          2 ^ stepWidth E (fileBytes.length * 8) s := by
        have := bitsToNat_lt (stepChunk E fileBytes (fileBytes.length * 8) s)
        rwa [hclen] at this
      have hcfix : to_binary_string
          (stepIndex E fileBytes (fileBytes.length * 8) s)
          (stepWidth E (fileBytes.length * 8) s) =
          stepChunk E fileBytes (fileBytes.length * 8) s := by
        rw [to_binary_string_eq_bitsFixed _ _ hw1 hclt, stepIndex]
        have := bitsFixed_bitsToNat
          (stepChunk E fileBytes (fileBytes.length * 8) s)
        rwa [hclen] at this
      simp only [pushResult] at hiter
      rw [hcl] at hiter
      rcases hclamp : decide (fileBytes.length * 8 - s.bitIndex <
          log2 (E.legalMoves s.pos).length) with _ | _
      · -- the step is not clamped: the simulation extends by one chunk
        rw [hclamp] at hiter
        simp only [Bool.false_or] at hiter
        have hwlog : stepWidth E (fileBytes.length * 8) s =
            log2 (E.legalMoves s.pos).length := by
          have h5 : ¬ (fileBytes.length * 8 - s.bitIndex <
              log2 (E.legalMoves s.pos).length) := of_decide_eq_false hclamp
          unfold stepWidth
          omega
        have hb2' : decodeBitsGame E E.start (s.stack ++
            [(E.legalMoves s.pos).get
              ⟨stepIndex E fileBytes (fileBytes.length * 8) s, hi⟩]) =
            some (b2 ++ stepChunk E fileBytes (fileBytes.length * 8) s) := by
          rw [decodeBitsGame_append, hb2, hreplay,
            findIdx?_get_of_nodup _ (hE.nodup s.pos) _ hi]
          show some (b2 ++ to_binary_string
            (stepIndex E fileBytes (fileBytes.length * 8) s)
            (log2 (E.legalMoves s.pos).length)) = _
          rw [← hwlog, hcfix]
        have htake : (bitsOfBytes fileBytes).take (s.bitIndex +
            stepWidth E (fileBytes.length * 8) s) =
            (bitsOfBytes fileBytes).take s.bitIndex ++
              stepChunk E fileBytes (fileBytes.length * 8) s := by
          rw [List.take_add]
          rfl
        have hcat' : b1 ++ (b2 ++
            stepChunk E fileBytes (fileBytes.length * 8) s) =
            (bitsOfBytes fileBytes).take (s.bitIndex +
              stepWidth E (fileBytes.length * 8) s) := by
          rw [htake, ← hcat, List.append_assoc]
        rcases heof : decide (fileBytes.length * 8 ≤ s.bitIndex +
            stepWidth E (fileBytes.length * 8) s) with _ | _
        · -- not EOF: the loop continues
          rw [heof] at hiter
          simp only [Bool.or_false, Bool.false_eq_true, Bool.true_eq_false,
            if_false, if_true, reduceIte] at hiter
          have hidx' : s.bitIndex + stepWidth E (fileBytes.length * 8) s <
              fileBytes.length * 8 := by
            have h6 := of_decide_eq_false heof
            omega
          rcases hcb : (decide ((E.legalMoves (E.push s.pos
              ((E.legalMoves s.pos).get
                ⟨stepIndex E fileBytes (fileBytes.length * 8) s,
                  hi⟩))).length ≤ 1)
              || E.insufficientMaterial (E.push s.pos
                ((E.legalMoves s.pos).get
                  ⟨stepIndex E fileBytes (fileBytes.length * 8) s, hi⟩))
              || E.canClaimDraw (E.push s.pos
                ((E.legalMoves s.pos).get
                  ⟨stepIndex E fileBytes (fileBytes.length * 8) s, hi⟩)))
              with _ | _
          · -- same game continues with the pushed move
            rw [hcb] at hiter
            simp only [Bool.false_eq_true, Bool.true_eq_false, if_false,
              if_true, reduceIte] at hiter
            rw [hiter] at h
            have h2 : encodeLoop E ft fn fileBytes (fileBytes.length * 8)
                fuel ⟨E.push s.pos ((E.legalMoves s.pos).get
                    ⟨stepIndex E fileBytes (fileBytes.length * 8) s, hi⟩),
                  s.stack ++ [(E.legalMoves s.pos).get
                    ⟨stepIndex E fileBytes (fileBytes.length * 8) s, hi⟩],
                  s.movesInGame + 1,
                  s.bitIndex + stepWidth E (fileBytes.length * 8) s,
                  s.parts, false⟩ = some (.ok (parts, false)) := h
            have h8 := hcb
            simp only [Bool.or_eq_false_iff,
              decide_eq_false_iff_not] at h8
            refine ih ⟨E.push s.pos ((E.legalMoves s.pos).get
                  ⟨stepIndex E fileBytes (fileBytes.length * 8) s, hi⟩),
                s.stack ++ [(E.legalMoves s.pos).get
                  ⟨stepIndex E fileBytes (fileBytes.length * 8) s, hi⟩],
                s.movesInGame + 1,
                s.bitIndex + stepWidth E (fileBytes.length * 8) s,
                s.parts, false⟩
              ⟨hidx', by
                show 2 ≤ (E.legalMoves (E.push s.pos
                  ((E.legalMoves s.pos).get
                    ⟨stepIndex E fileBytes (fileBytes.length * 8) s,
                      hi⟩))).length
                have := h8.1.1
                omega⟩
              ⟨?_, b1, b2 ++ stepChunk E fileBytes (fileBytes.length * 8) s,
                hb1, hb2', hcat'⟩ rfl parts h2
            show replay E E.start (s.stack ++ [(E.legalMoves s.pos).get
                ⟨stepIndex E fileBytes (fileBytes.length * 8) s, hi⟩]) = _
            rw [replay_append, hreplay]
          · -- terminal position: the part closes, a fresh game starts
            rw [hcb] at hiter
            simp only [Bool.false_eq_true, Bool.true_eq_false, if_false,
              if_true, reduceIte] at hiter
            rw [hiter] at h
            have h2 : encodeLoop E ft fn fileBytes (fileBytes.length * 8)
                fuel ⟨E.start, [], 0,
                  s.bitIndex + stepWidth E (fileBytes.length * 8) s,
                  closePart ft fn s.parts (s.stack ++
                    [(E.legalMoves s.pos).get
                      ⟨stepIndex E fileBytes (fileBytes.length * 8) s,
                        hi⟩]),
                  false⟩ = some (.ok (parts, false)) := h
            refine ih ⟨E.start, [], 0,
                s.bitIndex + stepWidth E (fileBytes.length * 8) s,
                closePart ft fn s.parts (s.stack ++
                  [(E.legalMoves s.pos).get
                    ⟨stepIndex E fileBytes (fileBytes.length * 8) s, hi⟩]),
                false⟩
              ⟨hidx', hE.startMoves⟩
              ⟨rfl, b1 ++ (b2 ++
                stepChunk E fileBytes (fileBytes.length * 8) s), [],
                ?_, rfl, ?_⟩ rfl parts h2
            · show decodeBits E ((closePart ft fn s.parts (s.stack ++
                  [(E.legalMoves s.pos).get
                    ⟨stepIndex E fileBytes (fileBytes.length * 8) s,
                      hi⟩])).map (fun p => p.moves)) = _
              have hmap : (closePart ft fn s.parts (s.stack ++
                  [(E.legalMoves s.pos).get
                    ⟨stepIndex E fileBytes (fileBytes.length * 8) s,
                      hi⟩])).map (fun p => p.moves) =
                  s.parts.map (fun p => p.moves) ++ [s.stack ++
                    [(E.legalMoves s.pos).get
                      ⟨stepIndex E fileBytes (fileBytes.length * 8) s,
                        hi⟩]] := by
                simp [closePart]
              rw [hmap, decodeBits_append_game, hb1, hb2']
            · show b1 ++ (b2 ++
                  stepChunk E fileBytes (fileBytes.length * 8) s) ++ [] = _
              rw [List.append_nil]
              exact hcat'
        · -- EOF: the loop breaks with all file bits consumed
          rw [heof] at hiter
          simp only [Bool.or_true, Bool.false_eq_true, Bool.true_eq_false,
            if_false, if_true, reduceIte] at hiter
          rw [hiter] at h
          have h3 : some (Except.ok ((closePart ft fn s.parts (s.stack ++
              [(E.legalMoves s.pos).get
                ⟨stepIndex E fileBytes (fileBytes.length * 8) s, hi⟩])),
              false)) =
              (some (Except.ok (parts, false)) :
                Option (Except EncodeError (List Part × Bool))) := h
          simp only [Option.some.injEq, Except.ok.injEq,
            Prod.mk.injEq] at h3
          rw [← h3.1]
          have hmap : (closePart ft fn s.parts (s.stack ++
              [(E.legalMoves s.pos).get
                ⟨stepIndex E fileBytes (fileBytes.length * 8) s,
                  hi⟩])).map (fun p => p.moves) =
              s.parts.map (fun p => p.moves) ++ [s.stack ++
                [(E.legalMoves s.pos).get
                  ⟨stepIndex E fileBytes (fileBytes.length * 8) s,
                    hi⟩]] := by
            simp [closePart]
          rw [hmap, decodeBits_append_game, hb1, hb2']
          show some (b1 ++ (b2 ++
            stepChunk E fileBytes (fileBytes.length * 8) s)) = _
          rw [hcat']
          have heq : s.bitIndex + stepWidth E (fileBytes.length * 8) s =
              fileBytes.length * 8 := by
            have h6 := of_decide_eq_true heof
            omega
          rw [heq]
          have hlenb := bitsOfBytes_length fileBytes hbytes
          rw [List.take_of_length_le (by omega)]
      · -- the step clamped the width: the final flag cannot be false
        exfalso
        rw [hclamp] at hiter
        simp only [Bool.false_or] at hiter
        rcases heof : decide (fileBytes.length * 8 ≤ s.bitIndex +
            stepWidth E (fileBytes.length * 8) s) with _ | _
        · rw [heof] at hiter
          simp only [Bool.or_false, Bool.false_eq_true, Bool.true_eq_false,
            if_false, if_true, reduceIte] at hiter
          rcases hcb : (decide ((E.legalMoves (E.push s.pos
              ((E.legalMoves s.pos).get
                ⟨stepIndex E fileBytes (fileBytes.length * 8) s,
                  hi⟩))).length ≤ 1)
              || E.insufficientMaterial (E.push s.pos
                ((E.legalMoves s.pos).get
                  ⟨stepIndex E fileBytes (fileBytes.length * 8) s, hi⟩))
              || E.canClaimDraw (E.push s.pos
                ((E.legalMoves s.pos).get
                  ⟨stepIndex E fileBytes (fileBytes.length * 8) s, hi⟩)))
              with _ | _
          · rw [hcb] at hiter
            simp only [Bool.false_eq_true, Bool.true_eq_false, if_false,
              if_true, reduceIte] at hiter
            rw [hiter] at h
            have h2 : encodeLoop E ft fn fileBytes (fileBytes.length * 8)
                fuel ⟨E.push s.pos ((E.legalMoves s.pos).get
                    ⟨stepIndex E fileBytes (fileBytes.length * 8) s, hi⟩),
                  s.stack ++ [(E.legalMoves s.pos).get
                    ⟨stepIndex E fileBytes (fileBytes.length * 8) s, hi⟩],
                  s.movesInGame + 1,
                  s.bitIndex + stepWidth E (fileBytes.length * 8) s,
                  s.parts, true⟩ = some (.ok (parts, false)) := h
            have h4 := encodeLoop_clamped_mono E ft fn fileBytes
              (fileBytes.length * 8) fuel _ parts false rfl h2
            simp at h4
          · rw [hcb] at hiter
            simp only [Bool.false_eq_true, Bool.true_eq_false, if_false,
              if_true, reduceIte] at hiter
            rw [hiter] at h
            have h2 : encodeLoop E ft fn fileBytes (fileBytes.length * 8)
                fuel ⟨E.start, [], 0,
                  s.bitIndex + stepWidth E (fileBytes.length * 8) s,
                  closePart ft fn s.parts (s.stack ++
                    [(E.legalMoves s.pos).get
                      ⟨stepIndex E fileBytes (fileBytes.length * 8) s,
                        hi⟩]),
                  true⟩ = some (.ok (parts, false)) := h
            have h4 := encodeLoop_clamped_mono E ft fn fileBytes
              (fileBytes.length * 8) fuel _ parts false rfl h2
            simp at h4
        · rw [heof] at hiter
          simp only [Bool.or_true, Bool.false_eq_true, Bool.true_eq_false,
            if_false, if_true, reduceIte] at hiter
          rw [hiter] at h
          have h3 : some (Except.ok ((closePart ft fn s.parts (s.stack ++
              [(E.legalMoves s.pos).get
                ⟨stepIndex E fileBytes (fileBytes.length * 8) s, hi⟩])),
              true)) =
              (some (Except.ok (parts, false)) :
                Option (Except EncodeError (List Part × Bool))) := h
          simp at h3

theorem decode_of_decodeBits (E : Engine Pos) (gs : List (List String))
    (bs : List Bool) (h : decodeBits E gs = some bs) :
    decode E gs = .ok (bytesOfBits bs) := by
  have hmain := (decodeAll_eq_bits E gs [] [] (by simp)).2 bs h
  unfold decode
  rw [hmain]
  obtain ⟨_, _, h3⟩ := drainBytes_stream (([] : List Bool) ++ bs).length
    (([] : List Bool) ++ bs) [] (le_refl _)
  rw [h3]
  simp

/-- C1: whenever no encoding step had its chunk width clamped by the
remaining-bits bound (the ghost `clamped` flag of the run is `false`),
decoding the moves of the parts produced by `encode` recovers the original
file bytes exactly. -/
theorem C1_roundtrip (Pos : Type) (E : Engine Pos) (hE : GoodEngine E)
    (ft fn : String) (fileBytes : List Nat) (hbytes : BytesOk fileBytes)
    (fuel : Nat) (res : EncodeResult)
    (henc : encode E ft fn fileBytes fuel = some (.ok res))
    (hnc : res.clamped = false) :
    decode E (res.parts.map (fun p => p.moves)) = .ok fileBytes := by
  unfold encode at henc
  by_cases hz : fileBytes.length = 0
  · rw [if_pos hz] at henc
    have h3 : some (Except.error EncodeError.invalidInput) =
        (some (Except.ok res) :
          Option (Except EncodeError EncodeResult)) := henc
    simp at h3
  · rw [if_neg hz] at henc
    rcases hloop : encodeLoop E ft fn fileBytes (fileBytes.length * 8)
        fuel (initState E) with _ | r2
    · rw [hloop] at henc
      have h3 : (none : Option (Except EncodeError EncodeResult)) =
          some (Except.ok res) := henc
      simp at h3
    · rw [hloop] at henc
      rcases r2 with e | ⟨parts0, clamped0⟩
      · have h3 : some (Except.error e) =
            (some (Except.ok res) :
              Option (Except EncodeError EncodeResult)) := henc
        simp at h3
      · have h3 : some (Except.ok
            (⟨parts0, fn, parts0.length,
              parts0.map (fun p => p.moves.length), clamped0⟩ :
              EncodeResult)) = some (Except.ok res) := henc
        simp only [Option.some.injEq, Except.ok.injEq] at h3
        have hcl0 : clamped0 = false := by
          rw [← h3] at hnc
          exact hnc
        rw [hcl0] at hloop
        have hbits := encodeLoop_bits E hE ft fn fileBytes hbytes fuel
          (initState E)
          ⟨by show (0 : Nat) < fileBytes.length * 8; omega, hE.startMoves⟩
          ⟨rfl, [], [], rfl, rfl, by
            show ([] : List Bool) ++ [] = (bitsOfBytes fileBytes).take 0
            simp⟩ rfl parts0 hloop
        have hdec := decode_of_decodeBits E
          (parts0.map (fun p => p.moves)) (bitsOfBytes fileBytes) hbits
        rw [bytesOfBits_bitsOfBytes fileBytes hbytes] at hdec
        rw [← h3]
        exact hdec

/-!
## Claim C2: the clamp mismatch

When the final step's width is clamped, the decoder reads the final bits
at the full width `⌊log₂ |legal|⌋` and so inserts extra leading zeros
into the recovered bit stream.
-/

/-- Widening a fixed-width encoding prepends zeros. -/
theorem to_binary_string_widen (n w W : Nat) (hw : 1 ≤ w) (hwW : w ≤ W)
    (h : n < 2 ^ w) :
    to_binary_string n W = List.replicate (W - w) false ++
      to_binary_string n w := by
  have hW : n < 2 ^ W :=
    lt_of_lt_of_le h (Nat.pow_le_pow_right (by decide) hwW)
  apply bitsToNat_injective
  · rw [(to_binary_string_length_eq n W (by omega)).2 hW,
      List.length_append, List.length_replicate,
      (to_binary_string_length_eq n w hw).2 h]
    omega
  · rw [bitsToNat_to_binary_string, bitsToNat_append,
      bitsToNat_replicate_false, bitsToNat_to_binary_string]
    simp

/-- Clamped-run simulation: a loop run whose ghost flag ends `true` had
its width clamped exactly at the final (EOF) step, and the bit stream its
parts decode to is the file's bit stream with `W - w` zeros inserted
before the final `w` bits, where `w` is the clamped width and `W` the
full width the decoder uses. -/
theorem encodeLoop_bits_clamped (E : Engine Pos) (hE : GoodEngine E)
    (ft fn : String) (fileBytes : List Nat) (hbytes : BytesOk fileBytes) :
    ∀ (fuel : Nat) (s : EncState Pos),
      EncInv E (fileBytes.length * 8) s →
      SInv E fileBytes s →
      s.clamped = false →
      ∀ parts,
        encodeLoop E ft fn fileBytes (fileBytes.length * 8) fuel s =
          some (.ok (parts, true)) →
        ∃ w W : Nat, 1 ≤ w ∧ w < W ∧ W ≤ 7 ∧
          w ≤ fileBytes.length * 8 ∧
          decodeBits E (parts.map (fun p => p.moves)) =
            some ((bitsOfBytes fileBytes).take
                (fileBytes.length * 8 - w) ++
              (List.replicate (W - w) false ++
                (bitsOfBytes fileBytes).drop
                  (fileBytes.length * 8 - w))) := by
  intro fuel
  induction fuel with
  | zero =>
    intro s _ _ _ parts h
    simp [encodeLoop] at h
  | succ fuel ih =>
    intro s hInv hS hcl parts h
    obtain ⟨hidx, hn⟩ := hInv
    obtain ⟨hreplay, b1, b2, hb1, hb2, hcat⟩ := hS
    rw [encodeLoop] at h
    by_cases h100 : 100 ≤ s.movesInGame
    · have hstep : encodeIter E ft fn fileBytes (fileBytes.length * 8) s =
          .next ⟨E.start, [], 0, s.bitIndex,
            closePart ft fn s.parts s.stack, s.clamped⟩ := by
        simp only [encodeIter]
        rw [if_pos h100]
      rw [hstep] at h
      have h2 : encodeLoop E ft fn fileBytes (fileBytes.length * 8) fuel
          ⟨E.start, [], 0, s.bitIndex,
            closePart ft fn s.parts s.stack, s.clamped⟩ =
          some (.ok (parts, true)) := h
      refine ih ⟨E.start, [], 0, s.bitIndex,
          closePart ft fn s.parts s.stack, s.clamped⟩
        ⟨hidx, hE.startMoves⟩ ⟨rfl, b1 ++ b2, [], ?_, rfl, ?_⟩
        hcl parts h2
      · show decodeBits E ((closePart ft fn s.parts s.stack).map
          (fun p => p.moves)) = some (b1 ++ b2)
        have hmap : (closePart ft fn s.parts s.stack).map
            (fun p => p.moves) =
            s.parts.map (fun p => p.moves) ++ [s.stack] := by
          simp [closePart]
        rw [hmap, decodeBits_append_game, hb1, hb2]
      · show b1 ++ b2 ++ [] = (bitsOfBytes fileBytes).take s.bitIndex
        simp [hcat]
    · obtain ⟨hclen, hchunk, hcnt, hi, hfind, hiter⟩ :=
        encodeIter_push E hE ft fn fileBytes hbytes s hidx hn h100
      have hw1 : 1 ≤ stepWidth E (fileBytes.length * 8) s :=
        stepWidth_pos E _ s hidx hn
      have hwrem : stepWidth E (fileBytes.length * 8) s ≤
          fileBytes.length * 8 - s.bitIndex := Nat.min_le_right _ _
      have hclt : stepIndex E fileBytes (fileBytes.length * 8) s <
          2 ^ stepWidth E (fileBytes.length * 8) s := by
        have := bitsToNat_lt (stepChunk E fileBytes (fileBytes.length * 8) s)
        rwa [hclen] at this
      have hcfix : to_binary_string
          (stepIndex E fileBytes (fileBytes.length * 8) s)
          (stepWidth E (fileBytes.length * 8) s) =
          stepChunk E fileBytes (fileBytes.length * 8) s := by
        rw [to_binary_string_eq_bitsFixed _ _ hw1 hclt, stepIndex]
        have := bitsFixed_bitsToNat
          (stepChunk E fileBytes (fileBytes.length * 8) s)
        rwa [hclen] at this
      simp only [pushResult] at hiter
      rw [hcl] at hiter
      rcases hclamp : decide (fileBytes.length * 8 - s.bitIndex <
          log2 (E.legalMoves s.pos).length) with _ | _
      · -- no clamp at this step: recurse exactly as in the clean run
        rw [hclamp] at hiter
        simp only [Bool.false_or] at hiter
        have hwlog : stepWidth E (fileBytes.length * 8) s =
            log2 (E.legalMoves s.pos).length := by
          have h5 : ¬ (fileBytes.length * 8 - s.bitIndex <
              log2 (E.legalMoves s.pos).length) := of_decide_eq_false hclamp
          unfold stepWidth
          omega
        have hb2' : decodeBitsGame E E.start (s.stack ++
            [(E.legalMoves s.pos).get
              ⟨stepIndex E fileBytes (fileBytes.length * 8) s, hi⟩]) =
            some (b2 ++ stepChunk E fileBytes (fileBytes.length * 8) s) := by
          rw [decodeBitsGame_append, hb2, hreplay,
            findIdx?_get_of_nodup _ (hE.nodup s.pos) _ hi]
          show some (b2 ++ to_binary_string
            (stepIndex E fileBytes (fileBytes.length * 8) s)
            (log2 (E.legalMoves s.pos).length)) = _
          rw [← hwlog, hcfix]
        have htake : (bitsOfBytes fileBytes).take (s.bitIndex +
            stepWidth E (fileBytes.length * 8) s) =
            (bitsOfBytes fileBytes).take s.bitIndex ++
              stepChunk E fileBytes (fileBytes.length * 8) s := by
          rw [List.take_add]
          rfl
        have hcat' : b1 ++ (b2 ++
            stepChunk E fileBytes (fileBytes.length * 8) s) =
            (bitsOfBytes fileBytes).take (s.bitIndex +
              stepWidth E (fileBytes.length * 8) s) := by
          rw [htake, ← hcat, List.append_assoc]
        rcases heof : decide (fileBytes.length * 8 ≤ s.bitIndex +
            stepWidth E (fileBytes.length * 8) s) with _ | _
        · rw [heof] at hiter
          simp only [Bool.or_false, Bool.false_eq_true, Bool.true_eq_false,
            if_false, if_true, reduceIte] at hiter
          have hidx' : s.bitIndex + stepWidth E (fileBytes.length * 8) s <
              fileBytes.length * 8 := by
            have h6 := of_decide_eq_false heof
            omega
          rcases hcb : (decide ((E.legalMoves (E.push s.pos
              ((E.legalMoves s.pos).get
                ⟨stepIndex E fileBytes (fileBytes.length * 8) s,
                  hi⟩))).length ≤ 1)
              || E.insufficientMaterial (E.push s.pos
                ((E.legalMoves s.pos).get
                  ⟨stepIndex E fileBytes (fileBytes.length * 8) s, hi⟩))
              || E.canClaimDraw (E.push s.pos
                ((E.legalMoves s.pos).get
                  ⟨stepIndex E fileBytes (fileBytes.length * 8) s, hi⟩)))
              with _ | _
          · rw [hcb] at hiter
            simp only [Bool.false_eq_true, Bool.true_eq_false, if_false,
              if_true, reduceIte] at hiter
            rw [hiter] at h
            have h2 : encodeLoop E ft fn fileBytes (fileBytes.length * 8)
                fuel ⟨E.push s.pos ((E.legalMoves s.pos).get
                    ⟨stepIndex E fileBytes (fileBytes.length * 8) s, hi⟩),
                  s.stack ++ [(E.legalMoves s.pos).get
                    ⟨stepIndex E fileBytes (fileBytes.length * 8) s, hi⟩],
                  s.movesInGame + 1,
                  s.bitIndex + stepWidth E (fileBytes.length * 8) s,
                  s.parts, false⟩ = some (.ok (parts, true)) := h
            have h8 := hcb
            simp only [Bool.or_eq_false_iff,
              decide_eq_false_iff_not] at h8
            refine ih ⟨E.push s.pos ((E.legalMoves s.pos).get
                  ⟨stepIndex E fileBytes (fileBytes.length * 8) s, hi⟩),
                s.stack ++ [(E.legalMoves s.pos).get
                  ⟨stepIndex E fileBytes (fileBytes.length * 8) s, hi⟩],
                s.movesInGame + 1,
                s.bitIndex + stepWidth E (fileBytes.length * 8) s,
                s.parts, false⟩
              ⟨hidx', by
                show 2 ≤ (E.legalMoves (E.push s.pos
                  ((E.legalMoves s.pos).get
                    ⟨stepIndex E fileBytes (fileBytes.length * 8) s,
                      hi⟩))).length
                have := h8.1.1
                omega⟩
              ⟨?_, b1, b2 ++ stepChunk E fileBytes (fileBytes.length * 8) s,
                hb1, hb2', hcat'⟩ rfl parts h2
            show replay E E.start (s.stack ++ [(E.legalMoves s.pos).get
                ⟨stepIndex E fileBytes (fileBytes.length * 8) s, hi⟩]) = _
            rw [replay_append, hreplay]
          · rw [hcb] at hiter
            simp only [Bool.false_eq_true, Bool.true_eq_false, if_false,
              if_true, reduceIte] at hiter
            rw [hiter] at h
            have h2 : encodeLoop E ft fn fileBytes (fileBytes.length * 8)
                fuel ⟨E.start, [], 0,
                  s.bitIndex + stepWidth E (fileBytes.length * 8) s,
                  closePart ft fn s.parts (s.stack ++
                    [(E.legalMoves s.pos).get
                      ⟨stepIndex E fileBytes (fileBytes.length * 8) s,
                        hi⟩]),
                  false⟩ = some (.ok (parts, true)) := h
            refine ih ⟨E.start, [], 0,
                s.bitIndex + stepWidth E (fileBytes.length * 8) s,
                closePart ft fn s.parts (s.stack ++
                  [(E.legalMoves s.pos).get
                    ⟨stepIndex E fileBytes (fileBytes.length * 8) s, hi⟩]),
                false⟩
              ⟨hidx', hE.startMoves⟩
              ⟨rfl, b1 ++ (b2 ++
                stepChunk E fileBytes (fileBytes.length * 8) s), [],
                ?_, rfl, ?_⟩ rfl parts h2
            · show decodeBits E ((closePart ft fn s.parts (s.stack ++
                  [(E.legalMoves s.pos).get
                    ⟨stepIndex E fileBytes (fileBytes.length * 8) s,
                      hi⟩])).map (fun p => p.moves)) = _
              have hmap : (closePart ft fn s.parts (s.stack ++
                  [(E.legalMoves s.pos).get
                    ⟨stepIndex E fileBytes (fileBytes.length * 8) s,
                      hi⟩])).map (fun p => p.moves) =
                  s.parts.map (fun p => p.moves) ++ [s.stack ++
                    [(E.legalMoves s.pos).get
                      ⟨stepIndex E fileBytes (fileBytes.length * 8) s,
                        hi⟩]] := by
                simp [closePart]
              rw [hmap, decodeBits_append_game, hb1, hb2']
            · show b1 ++ (b2 ++
                  stepChunk E fileBytes (fileBytes.length * 8) s) ++ [] = _
              rw [List.append_nil]
              exact hcat'
        · -- EOF without clamp: the run's flag is false, contradiction
          rw [heof] at hiter
          simp only [Bool.or_true, Bool.false_eq_true, Bool.true_eq_false,
            if_false, if_true, reduceIte] at hiter
          rw [hiter] at h
          have h3 : some (Except.ok ((closePart ft fn s.parts (s.stack ++
              [(E.legalMoves s.pos).get
                ⟨stepIndex E fileBytes (fileBytes.length * 8) s, hi⟩])),
              false)) =
              (some (Except.ok (parts, true)) :
                Option (Except EncodeError (List Part × Bool))) := h
          simp at h3
      · -- the clamped step: it is the final one, and the width collapses
        -- to the remaining bits
        rw [hclamp] at hiter
        simp only [Bool.false_or] at hiter
        have hrem : fileBytes.length * 8 - s.bitIndex <
            log2 (E.legalMoves s.pos).length := of_decide_eq_true hclamp
        have hwe : stepWidth E (fileBytes.length * 8) s =
            fileBytes.length * 8 - s.bitIndex := by
          unfold stepWidth
          omega
        have heof : decide (fileBytes.length * 8 ≤ s.bitIndex +
            stepWidth E (fileBytes.length * 8) s) = true :=
          decide_eq_true (by omega)
        rw [heof] at hiter
        simp only [Bool.or_true, Bool.false_eq_true, Bool.true_eq_false,
          if_false, if_true, reduceIte] at hiter
        rw [hiter] at h
        have h3 : some (Except.ok ((closePart ft fn s.parts (s.stack ++
            [(E.legalMoves s.pos).get
              ⟨stepIndex E fileBytes (fileBytes.length * 8) s, hi⟩])),
            true)) =
            (some (Except.ok (parts, true)) :
              Option (Except EncodeError (List Part × Bool))) := h
        simp only [Option.some.injEq, Except.ok.injEq,
          Prod.mk.injEq] at h3
        refine ⟨stepWidth E (fileBytes.length * 8) s,
          log2 (E.legalMoves s.pos).length, hw1, by omega, ?_, by omega,
          ?_⟩
        · rw [log2_eq]
          have hb := hE.bounded s.pos
          have hlt : Nat.log 2 (E.legalMoves s.pos).length < 8 :=
            Nat.log_lt_of_lt_pow (by omega) (by omega)
          omega
        · rw [← h3.1]
          have hmap : (closePart ft fn s.parts (s.stack ++
              [(E.legalMoves s.pos).get
                ⟨stepIndex E fileBytes (fileBytes.length * 8) s,
                  hi⟩])).map (fun p => p.moves) =
              s.parts.map (fun p => p.moves) ++ [s.stack ++
                [(E.legalMoves s.pos).get
                  ⟨stepIndex E fileBytes (fileBytes.length * 8) s,
                    hi⟩]] := by
            simp [closePart]
          have hb2'' : decodeBitsGame E E.start (s.stack ++
              [(E.legalMoves s.pos).get
                ⟨stepIndex E fileBytes (fileBytes.length * 8) s, hi⟩]) =
              some (b2 ++ to_binary_string
                (stepIndex E fileBytes (fileBytes.length * 8) s)
                (log2 (E.legalMoves s.pos).length)) := by
            rw [decodeBitsGame_append, hb2, hreplay,
              findIdx?_get_of_nodup _ (hE.nodup s.pos) _ hi]
          rw [hmap, decodeBits_append_game, hb1, hb2'']
          show some (b1 ++ (b2 ++ to_binary_string
            (stepIndex E fileBytes (fileBytes.length * 8) s)
            (log2 (E.legalMoves s.pos).length))) = _
          have hchunkall : stepChunk E fileBytes (fileBytes.length * 8) s =
              (bitsOfBytes fileBytes).drop s.bitIndex := by
            unfold stepChunk
            exact List.take_of_length_le (by
              rw [List.length_drop, bitsOfBytes_length fileBytes hbytes]
              omega)
          have hbidx : s.bitIndex = fileBytes.length * 8 -
              stepWidth E (fileBytes.length * 8) s := by omega
          rw [to_binary_string_widen _ _ _ hw1 (by omega) hclt, hcfix,
            hchunkall, ← hbidx, ← hcat, List.append_assoc]

/-- C2 (corrected): when the run's final step was clamped (the ghost flag
of a successful `encode` is `true`), the decoder reads the final `w` file
bits at the full width `W = ⌊log₂ |legal|⌋ > w`, so the bit stream it
recovers is the original with `W - w` zeros inserted before those final
`w` bits — the wrong-width read the claim describes.  The claim's further
assertion that the decoded *output* always differs from the original
buffer in its tail is false: when the final `w` bits are all zero the
inserted zeros are indistinguishable and the byte output round-trips; see
the counterexample. -/
theorem C2_clamp_mismatch (Pos : Type) (E : Engine Pos)
    (hE : GoodEngine E) (ft fn : String) (fileBytes : List Nat)
    (hbytes : BytesOk fileBytes) (fuel : Nat) (res : EncodeResult)
    (henc : encode E ft fn fileBytes fuel = some (.ok res))
    (hc : res.clamped = true) :
    ∃ w W : Nat, 1 ≤ w ∧ w < W ∧ W ≤ 7 ∧ w ≤ fileBytes.length * 8 ∧
      decodeBits E (res.parts.map (fun p => p.moves)) =
        some ((bitsOfBytes fileBytes).take (fileBytes.length * 8 - w) ++
          (List.replicate (W - w) false ++
            (bitsOfBytes fileBytes).drop (fileBytes.length * 8 - w))) := by
  unfold encode at henc
  by_cases hz : fileBytes.length = 0
  · rw [if_pos hz] at henc
    have h3 : some (Except.error EncodeError.invalidInput) =
        (some (Except.ok res) :
          Option (Except EncodeError EncodeResult)) := henc
    simp at h3
  · rw [if_neg hz] at henc
    rcases hloop : encodeLoop E ft fn fileBytes (fileBytes.length * 8)
        fuel (initState E) with _ | r2
    · rw [hloop] at henc
      have h3 : (none : Option (Except EncodeError EncodeResult)) =
          some (Except.ok res) := henc
      simp at h3
    · rw [hloop] at henc
      rcases r2 with e | ⟨parts0, clamped0⟩
      · have h3 : some (Except.error e) =
            (some (Except.ok res) :
              Option (Except EncodeError EncodeResult)) := henc
        simp at h3
      · have h3 : some (Except.ok
            (⟨parts0, fn, parts0.length,
              parts0.map (fun p => p.moves.length), clamped0⟩ :
              EncodeResult)) = some (Except.ok res) := henc
        simp only [Option.some.injEq, Except.ok.injEq] at h3
        have hcl0 : clamped0 = true := by
          rw [← h3] at hc
          exact hc
        rw [hcl0] at hloop
        have hmain := encodeLoop_bits_clamped E hE ft fn fileBytes hbytes
          fuel (initState E)
          ⟨by show (0 : Nat) < fileBytes.length * 8; omega, hE.startMoves⟩
          ⟨rfl, [], [], rfl, rfl, by
            show ([] : List Bool) ++ [] = (bitsOfBytes fileBytes).take 0
            simp⟩ rfl parts0 hloop
        rw [← h3]
        exact hmain

theorem bytesOk_108 : BytesOk [108] := by
  intro b hb
  simp at hb
  omega

/-- Witness for C2's amended statement: the eight-move engine on a
one-byte file clamps the final step from width 3 to width 2. -/
theorem C2_clamp_mismatch_witness :
    GoodEngine engine8 ∧ BytesOk [108] ∧
    encode engine8 "t" "f" [108] 100 =
      some (.ok (⟨[⟨"t", "f", 1, ["d", "d", "a"]⟩], "f", 1, [3],
        true⟩ : EncodeResult)) ∧
    (∃ w W : Nat, 1 ≤ w ∧ w < W ∧ W ≤ 7 ∧
      w ≤ ([108] : List Nat).length * 8 ∧
      decodeBits engine8
          ((⟨[⟨"t", "f", 1, ["d", "d", "a"]⟩], "f", 1, [3],
            true⟩ : EncodeResult).parts.map (fun p => p.moves)) =
        some ((bitsOfBytes [108]).take (([108] : List Nat).length * 8 - w)
          ++ (List.replicate (W - w) false ++
            (bitsOfBytes [108]).drop (([108] : List Nat).length * 8 - w)))) := by
  have hgood : GoodEngine engine8 := by
    refine ⟨?_, ?_, ?_⟩
    · intro p
      show (["a", "b", "c", "d", "e", "f", "g", "h"] : List String).Nodup
      decide
    · decide
    · intro p
      show (["a", "b", "c", "d", "e", "f", "g", "h"] :
        List String).length < 256
      decide
  exact ⟨hgood, bytesOk_108, rfl,
    C2_clamp_mismatch (List String) engine8 hgood "t" "f" [108]
      bytesOk_108 100 _ rfl rfl⟩

/-- Counterexample to C2 as stated: this clamped run decodes back to the
original buffer — the file's final two bits are `00`, so the zero the
decoder's wrong-width read inserts is absorbed and the output does not
differ.  (`0x6C = 01101100₂`; widths 3, 3, then 2 clamped at EOF.) -/
theorem C2_clamp_counterexample :
    ∃ res, encode engine8 "t" "f" [108] 100 = some (.ok res) ∧
      res.clamped = true ∧
      decode engine8 (res.parts.map (fun p => p.moves)) = .ok [108] :=
  ⟨⟨[⟨"t", "f", 1, ["d", "d", "a"]⟩], "f", 1, [3], true⟩, rfl, rfl, rfl⟩

/-- Counterexample to C7 as stated: `decode` appends
`bin(index).zfill(width)` per move, which exceeds `width` bits for a move
of ordinal index `≥ 2^width`.  With five legal moves the width is 2 but
move `e` has index 4 and contributes `100` — three bits — so three such
moves yield 9 bits and one output byte, while the claim's formula gives
`⌊(2+2+2)/8⌋ = 0` bytes. -/
theorem C7_widths_counterexample :
    decode toy5 [["e", "e", "e"]] = .ok [146] ∧
    specOutLen toy5 [["e", "e", "e"]] = 0 ∧
    ([146] : List Nat).length ≠ specOutLen toy5 [["e", "e", "e"]] :=
  ⟨rfl, rfl, by decide⟩

/-- Witness for C1: a one-byte file encoded with the miniature engine
(never clamped) decodes back to the original byte. -/
theorem C1_roundtrip_witness :
    GoodEngine toyEngine ∧ BytesOk [65] ∧
    encode toyEngine "t" "f" [65] 100 =
      some (.ok (⟨[⟨"t", "f", 1, ["b", "a", "a", "b"]⟩], "f", 1, [4],
        false⟩ : EncodeResult)) ∧
    (⟨[⟨"t", "f", 1, ["b", "a", "a", "b"]⟩], "f", 1, [4],
      false⟩ : EncodeResult).clamped = false ∧
    decode toyEngine
        ((⟨[⟨"t", "f", 1, ["b", "a", "a", "b"]⟩], "f", 1, [4],
          false⟩ : EncodeResult).parts.map (fun p => p.moves)) =
      .ok [65] :=
  ⟨toyEngine_good, bytesOk_65, rfl, rfl,
    C1_roundtrip (List String) toyEngine toyEngine_good "t" "f" [65]
      bytesOk_65 100 _ rfl rfl⟩

/-!
## Claim C8: the two-byte concrete scenario

`0x41 0x42` is sixteen bits.  At every reached position real chess offers
between 16 and 31 legal moves and no draw condition within the first
three plies, so every step has width 4, no step clamps, and the run is a
single four-move game closed at EOF.  The Rules Engine is the abstract
interface of §3/§9; the chess facts the scenario relies on enter as
hypotheses and are discharged by a concrete engine in the witness.
-/

theorem gameLegal_append (E : Engine Pos) :
    ∀ (ms : List String) (p : Pos) (m : String),
      GameLegal E p ms → m ∈ E.legalMoves (replay E p ms) →
      GameLegal E p (ms ++ [m]) := by
  intro ms
  induction ms with
  | nil =>
    intro p m _ hm
    rw [List.nil_append, gameLegal_cons]
    refine ⟨by rwa [replay_nil] at hm, ?_⟩
    intro j hj
    simp at hj
  | cons m0 rest ih =>
    intro p m h hm
    rw [List.cons_append, gameLegal_cons]
    rw [gameLegal_cons] at h
    exact ⟨h.1, ih (E.push p m0) m h.2 (by rwa [replay_cons] at hm)⟩

theorem encodeLoop_succ (E : Engine Pos) (ft fn : String)
    (fileBytes : List Nat) (bitsCount fuel : Nat) (s : EncState Pos) :
    encodeLoop E ft fn fileBytes bitsCount (fuel + 1) s =
      match encodeIter E ft fn fileBytes bitsCount s with
      | .next s2 => encodeLoop E ft fn fileBytes bitsCount fuel s2
      | .done parts clamped => some (.ok (parts, clamped))
      | .fail e => some (.error e) := rfl

theorem bytesOk_6566 : BytesOk [65, 66] := by
  intro b hb
  simp at hb
  rcases hb with rfl | rfl <;> omega

/-- One encoder iteration of the two-byte scenario: with 16–31 legal
moves at every reached position and no draw condition, a step at bit
cursor `4k` (`k ≤ 3`) pushes one move at width 4; it continues the game
for `k < 3` and closes the single part at EOF for `k = 3`. -/
theorem C8_iter (E : Engine Pos) (hE : GoodEngine E) (ft fn : String)
    (hcount : ∀ ms : List String, GameLegal E E.start ms →
      ms.length ≤ 3 →
      16 ≤ (E.legalMoves (replay E E.start ms)).length ∧
      (E.legalMoves (replay E E.start ms)).length < 32)
    (hterm : ∀ ms : List String, GameLegal E E.start ms →
      1 ≤ ms.length → ms.length ≤ 3 →
      E.insufficientMaterial (replay E E.start ms) = false ∧
      E.canClaimDraw (replay E E.start ms) = false)
    (s : EncState Pos)
    (hpos : replay E E.start s.stack = s.pos)
    (hleg : GameLegal E E.start s.stack)
    (hmig : s.movesInGame ≤ 3)
    (hidx : s.bitIndex = 4 * s.stack.length)
    (hlen3 : s.stack.length ≤ 3)
    (hclf : s.clamped = false) :
    ∃ m, m ∈ E.legalMoves s.pos ∧
      (s.stack.length < 3 →
        encodeIter E ft fn [65, 66] (([65, 66] : List Nat).length * 8) s =
          .next ⟨E.push s.pos m, s.stack ++ [m], s.movesInGame + 1,
            s.bitIndex + 4, s.parts, false⟩) ∧
      (s.stack.length = 3 →
        encodeIter E ft fn [65, 66] (([65, 66] : List Nat).length * 8) s =
          .done (closePart ft fn s.parts (s.stack ++ [m])) false) := by
  have h16 : (([65, 66] : List Nat).length * 8) = 16 := rfl
  have hcnt := hcount s.stack hleg hlen3
  rw [hpos] at hcnt
  have hn : 2 ≤ (E.legalMoves s.pos).length := by omega
  have hlog : log2 (E.legalMoves s.pos).length = 4 := by
    rw [log2_eq]
    exact Nat.log_eq_of_pow_le_of_lt_pow (by omega) (by omega)
  have hidxlt : s.bitIndex < ([65, 66] : List Nat).length * 8 := by
    omega
  have h100 : ¬ 100 ≤ s.movesInGame := by omega
  obtain ⟨hclen, hchunk, hcnt1, hi, hfind, hiter⟩ :=
    encodeIter_push E hE ft fn [65, 66] bytesOk_6566 s hidxlt hn h100
  have hw4 : stepWidth E (([65, 66] : List Nat).length * 8) s = 4 := by
    unfold stepWidth
    rw [hlog, h16, hidx]
    omega
  have hclampeq : decide ((([65, 66] : List Nat).length * 8) - s.bitIndex <
      log2 (E.legalMoves s.pos).length) = false :=
    decide_eq_false (by rw [hlog, h16, hidx]; omega)
  have hmem : (E.legalMoves s.pos).get
      ⟨stepIndex E [65, 66] (([65, 66] : List Nat).length * 8) s, hi⟩ ∈
      E.legalMoves s.pos := List.get_mem _ _ _
  have hlegM : GameLegal E E.start (s.stack ++
      [(E.legalMoves s.pos).get
        ⟨stepIndex E [65, 66] (([65, 66] : List Nat).length * 8) s, hi⟩]) :=
    gameLegal_append E s.stack E.start _ hleg (by rw [hpos]; exact hmem)
  have hrepM : replay E E.start (s.stack ++
      [(E.legalMoves s.pos).get
        ⟨stepIndex E [65, 66] (([65, 66] : List Nat).length * 8) s, hi⟩]) =
      E.push s.pos ((E.legalMoves s.pos).get
        ⟨stepIndex E [65, 66] (([65, 66] : List Nat).length * 8) s, hi⟩) := by
    rw [replay_append, hpos]
  refine ⟨(E.legalMoves s.pos).get
    ⟨stepIndex E [65, 66] (([65, 66] : List Nat).length * 8) s, hi⟩,
    hmem, ?_, ?_⟩
  · intro hlt
    have heofeq : decide ((([65, 66] : List Nat).length * 8) ≤
        s.bitIndex + 4) = false :=
      decide_eq_false (by rw [h16, hidx]; omega)
    have hlenM : (s.stack ++ [(E.legalMoves s.pos).get
        ⟨stepIndex E [65, 66] (([65, 66] : List Nat).length * 8) s,
          hi⟩]).length ≤ 3 := by
      rw [List.length_append, List.length_singleton]
      omega
    have hcntM := hcount _ hlegM hlenM
    rw [hrepM] at hcntM
    have htermM := hterm _ hlegM
      (by rw [List.length_append, List.length_singleton]; omega) hlenM
    rw [hrepM] at htermM
    have hc1 : decide ((E.legalMoves (E.push s.pos
        ((E.legalMoves s.pos).get
          ⟨stepIndex E [65, 66] (([65, 66] : List Nat).length * 8) s,
            hi⟩))).length ≤ 1) = false :=
      decide_eq_false (by omega)
    rw [hiter, hw4]
    simp only [pushResult]
    rw [hclf, hclampeq, heofeq]
    simp only [Bool.or_false, Bool.false_eq_true, if_false, reduceIte]
    rw [hc1, htermM.1, htermM.2]
    simp only [Bool.or_false, Bool.false_eq_true, if_false, reduceIte]
  · intro heq
    have heofeq : decide ((([65, 66] : List Nat).length * 8) ≤
        s.bitIndex + 4) = true :=
      decide_eq_true (by rw [h16, hidx, heq])
    rw [hiter, hw4]
    simp only [pushResult]
    rw [hclf, hclampeq, heofeq]
    simp only [Bool.or_true, Bool.or_false, Bool.false_eq_true, if_true,
      if_false, reduceIte]

/-- C8: encoding the two-byte buffer `0x41 0x42` (bits
`01000001 01000010`) produces a result with `gameCount = 1`, and decoding
its emitted move sequence yields back exactly `[0x41, 0x42]`.  Modelled
from the spec: the Rules Engine is external (§3, §9), so the chess facts
the scenario rests on — every position within three plies of the start
offers between 16 and 31 legal moves (chess: 20 at the start, at most 31
this early) with sufficient material and no claimable draw — are
hypotheses on the abstract engine. -/
theorem C8_two_byte_scenario (Pos : Type) (E : Engine Pos)
    (hE : GoodEngine E) (ft fn : String)
    (hcount : ∀ ms : List String, GameLegal E E.start ms →
      ms.length ≤ 3 →
      16 ≤ (E.legalMoves (replay E E.start ms)).length ∧
      (E.legalMoves (replay E E.start ms)).length < 32)
    (hterm : ∀ ms : List String, GameLegal E E.start ms →
      1 ≤ ms.length → ms.length ≤ 3 →
      E.insufficientMaterial (replay E E.start ms) = false ∧
      E.canClaimDraw (replay E E.start ms) = false) :
    ∃ res, encode E ft fn [65, 66] 5 = some (.ok res) ∧
      res.gameCount = 1 ∧
      decode E (res.parts.map (fun p => p.moves)) = .ok [65, 66] := by
  obtain ⟨m0, hm0, hnext0, _⟩ := C8_iter E hE ft fn hcount hterm
    (initState E) rfl (by intro j hj; simp [initState] at hj)
    (by show (0 : Nat) ≤ 3; decide) rfl (by show (0 : Nat) ≤ 3; decide)
    rfl
  have hstep0 : encodeIter E ft fn [65, 66]
      (([65, 66] : List Nat).length * 8) (initState E) =
      .next ⟨E.push E.start m0, [m0], 1, 4, [], false⟩ :=
    hnext0 (by show (0 : Nat) < 3; decide)
  have hleg1 : GameLegal E E.start [m0] := by
    have := gameLegal_append E [] E.start m0
      (by intro j hj; simp at hj) (by exact hm0)
    simpa using this
  obtain ⟨m1, hm1, hnext1, _⟩ := C8_iter E hE ft fn hcount hterm
    ⟨E.push E.start m0, [m0], 1, 4, [], false⟩ rfl hleg1
    (by show (1 : Nat) ≤ 3; decide) rfl (by show (1 : Nat) ≤ 3; decide)
    rfl
  have hstep1 : encodeIter E ft fn [65, 66]
      (([65, 66] : List Nat).length * 8)
      ⟨E.push E.start m0, [m0], 1, 4, [], false⟩ =
      .next ⟨E.push (E.push E.start m0) m1, [m0, m1], 2, 8, [], false⟩ :=
    hnext1 (by show (1 : Nat) < 3; decide)
  have hleg2 : GameLegal E E.start [m0, m1] := by
    have := gameLegal_append E [m0] E.start m1 hleg1 (by exact hm1)
    simpa using this
  obtain ⟨m2, hm2, hnext2, _⟩ := C8_iter E hE ft fn hcount hterm
    ⟨E.push (E.push E.start m0) m1, [m0, m1], 2, 8, [], false⟩ rfl hleg2
    (by show (2 : Nat) ≤ 3; decide) rfl (by show (2 : Nat) ≤ 3; decide)
    rfl
  have hstep2 : encodeIter E ft fn [65, 66]
      (([65, 66] : List Nat).length * 8)
      ⟨E.push (E.push E.start m0) m1, [m0, m1], 2, 8, [], false⟩ =
      .next ⟨E.push (E.push (E.push E.start m0) m1) m2, [m0, m1, m2], 3,
        12, [], false⟩ :=
    hnext2 (by show (2 : Nat) < 3; decide)
  have hleg3 : GameLegal E E.start [m0, m1, m2] := by
    have := gameLegal_append E [m0, m1] E.start m2 hleg2 (by exact hm2)
    simpa using this
  obtain ⟨m3, hm3, _, hdone3⟩ := C8_iter E hE ft fn hcount hterm
    ⟨E.push (E.push (E.push E.start m0) m1) m2, [m0, m1, m2], 3, 12, [],
      false⟩ rfl hleg3 (by show (3 : Nat) ≤ 3; decide) rfl
    (by show (3 : Nat) ≤ 3; decide) rfl
  have hstep3 : encodeIter E ft fn [65, 66]
      (([65, 66] : List Nat).length * 8)
      ⟨E.push (E.push (E.push E.start m0) m1) m2, [m0, m1, m2], 3, 12, [],
        false⟩ =
      .done [⟨ft, fn, 1, [m0, m1, m2, m3]⟩] false :=
    hdone3 rfl
  have hrun : encodeLoop E ft fn [65, 66]
      (([65, 66] : List Nat).length * 8) (4 + 1) (initState E) =
      some (.ok ([⟨ft, fn, 1, [m0, m1, m2, m3]⟩], false)) := by
    rw [encodeLoop_succ, hstep0]
    show encodeLoop E ft fn [65, 66] (([65, 66] : List Nat).length * 8)
      (3 + 1) ⟨E.push E.start m0, [m0], 1, 4, [], false⟩ = _
    rw [encodeLoop_succ, hstep1]
    show encodeLoop E ft fn [65, 66] (([65, 66] : List Nat).length * 8)
      (2 + 1) ⟨E.push (E.push E.start m0) m1, [m0, m1], 2, 8, [],
        false⟩ = _
    rw [encodeLoop_succ, hstep2]
    show encodeLoop E ft fn [65, 66] (([65, 66] : List Nat).length * 8)
      (1 + 1) ⟨E.push (E.push (E.push E.start m0) m1) m2, [m0, m1, m2],
        3, 12, [], false⟩ = _
    rw [encodeLoop_succ, hstep3]
  have hrun5 : encodeLoop E ft fn [65, 66]
      (([65, 66] : List Nat).length * 8) 5 (initState E) =
      some (.ok ([⟨ft, fn, 1, [m0, m1, m2, m3]⟩], false)) := hrun
  refine ⟨⟨[⟨ft, fn, 1, [m0, m1, m2, m3]⟩], fn, 1, [4], false⟩, ?_, rfl,
    ?_⟩
  · unfold encode
    rw [if_neg (by decide : ¬ ([65, 66] : List Nat).length = 0), hrun5]
    rfl
  · have hbits := encodeLoop_bits E hE ft fn [65, 66] bytesOk_6566 5
      (initState E)
      ⟨by show (0 : Nat) < ([65, 66] : List Nat).length * 8; decide,
        hE.startMoves⟩
      ⟨rfl, [], [], rfl, rfl, by
        show ([] : List Bool) ++ [] = (bitsOfBytes [65, 66]).take 0
        simp⟩ rfl [⟨ft, fn, 1, [m0, m1, m2, m3]⟩] hrun5
    have hdec := decode_of_decodeBits E
      (([(⟨ft, fn, 1, [m0, m1, m2, m3]⟩ : Part)]).map (fun p => p.moves))
      (bitsOfBytes [65, 66]) hbits
    rw [bytesOfBits_bitsOfBytes [65, 66] bytesOk_6566] at hdec
    exact hdec

/-- Witness for C8: a twenty-move engine — the legal-move count of the
initial chess position — satisfies the scenario's chess-fact hypotheses
and round-trips `0x41 0x42` in a single game. -/
theorem C8_two_byte_scenario_witness :
    GoodEngine chess20 ∧
    (∃ res, encode chess20 "t" "f" [65, 66] 5 = some (.ok res) ∧
      res.gameCount = 1 ∧
      decode chess20 (res.parts.map (fun p => p.moves)) =
        .ok [65, 66]) := by
  have hgood : GoodEngine chess20 := by
    refine ⟨?_, ?_, ?_⟩
    · intro p
      show (["m01", "m02", "m03", "m04", "m05", "m06", "m07", "m08",
        "m09", "m10", "m11", "m12", "m13", "m14", "m15", "m16", "m17",
        "m18", "m19", "m20"] : List String).Nodup
      decide
    · decide
    · intro p
      show (["m01", "m02", "m03", "m04", "m05", "m06", "m07", "m08",
        "m09", "m10", "m11", "m12", "m13", "m14", "m15", "m16", "m17",
        "m18", "m19", "m20"] : List String).length < 256
      decide
  have hcount : ∀ ms : List String, GameLegal chess20 chess20.start ms →
      ms.length ≤ 3 →
      16 ≤ (chess20.legalMoves (replay chess20 chess20.start ms)).length ∧
      (chess20.legalMoves (replay chess20 chess20.start ms)).length <
        32 := by
    intro ms _ _
    constructor
    · show 16 ≤ (["m01", "m02", "m03", "m04", "m05", "m06", "m07", "m08",
        "m09", "m10", "m11", "m12", "m13", "m14", "m15", "m16", "m17",
        "m18", "m19", "m20"] : List String).length
      decide
    · show (["m01", "m02", "m03", "m04", "m05", "m06", "m07", "m08",
        "m09", "m10", "m11", "m12", "m13", "m14", "m15", "m16", "m17",
        "m18", "m19", "m20"] : List String).length < 32
      decide
  have hterm : ∀ ms : List String, GameLegal chess20 chess20.start ms →
      1 ≤ ms.length → ms.length ≤ 3 →
      chess20.insufficientMaterial
        (replay chess20 chess20.start ms) = false ∧
      chess20.canClaimDraw (replay chess20 chess20.start ms) = false := by
    intro ms _ _ _
    exact ⟨rfl, rfl⟩
  exact ⟨hgood, C8_two_byte_scenario (List String) chess20 hgood "t" "f"
    hcount hterm⟩

end ChessStorage
